import Mathlib

/-!
Verification of the subscription registry and dispatch core of the
strictly-typed-events library, as a shallow embedding of
src/EventEmitter.ts, src/AbstractEventSource.ts and src/once.ts.

The JS objects `eventName -> { subscriptionId -> handler }` are modelled as
insertion-ordered association lists: string keys of the shape
`subscription_N` are not array indices, so JS objects enumerate them in
insertion order, and `delete` removes a single key.  Subscription ids
`subscription_N` are generated injectively from the monotone counter
`nextSubscriptionIdNumber`, so an id is modelled by its number `N`.

A handler function is modelled by the observable actions it performs when
invoked: record its invocation together with the received arguments, call a
subscription cancel handle, register a new subscription on the same emitter
via `on` or `once`, or throw.  The `for..in` dispatch loop of
`createEventHandlerCaller` is modelled, as the spec describes it, by taking
the ordered snapshot of the subscription ids present when dispatch begins
and re-reading the live map at each turn: ids deleted during the pass are
skipped, ids added during the pass are not in the snapshot.
-/

namespace StrictlyTypedEvents

/-- Subscription id, modelling the string `subscription_N` by `N`. -/
abbrev SubId := Nat

/-- Deep embedding of the observable behaviour of a handler function.  A
handler runs a finite list of actions in order when invoked by a dispatch. -/
inductive HAct : Type where
  /-- Record that the handler was invoked, tagged `tag`, together with the
  argument tuple the handler received. -/
  | record (tag : Nat)
  /-- Call the cancel handle `this.cancel.bind(this, id)`. -/
  | cancelHandle (id : SubId)
  /-- Call `on(eventName, body)` on the same emitter. -/
  | onNew (eventName : String) (body : List HAct)
  /-- Call `once(eventName, body)` on the same emitter. -/
  | onceNew (eventName : String) (body : List HAct)
  /-- Throw an exception. -/
  | throwErr

/-- A handler is the list of actions it performs when invoked. -/
abbrev Handler := List HAct

/-- State of an `EventEmitter`: the field `handlers` models the JS object
`eventName -> { subscriptionId -> handler }` of EventEmitter.ts, and
`nextSubscriptionIdNumber` the id counter. -/
structure EmitterState where
  handlers : List (String × List (SubId × Handler))
  nextSubscriptionIdNumber : Nat

/-- Read `this.handlers[eventName]` (property lookup on a JS object). -/
def lookupEv (e : String) : List (String × List (SubId × Handler)) → Option (List (SubId × Handler))
  | [] => none
  | (k, v) :: rest => if k = e then some v else lookupEv e rest

/-- Read `eventHandlers[subscriptionId]`. -/
def lookupId (i : SubId) : List (SubId × Handler) → Option Handler
  | [] => none
  | (k, v) :: rest => if k = i then some v else lookupId i rest

/-- JS property assignment `eventHandlers[subscriptionId] = handler`:
overwrite in place if the key exists, else append the new key. -/
def setId (i : SubId) (h : Handler) : List (SubId × Handler) → List (SubId × Handler)
  | [] => [(i, h)]
  | (k, v) :: rest => if k = i then (i, h) :: rest else (k, v) :: setId i h rest

/-- JS property assignment `this.handlers[eventName] = m`. -/
def setEv (e : String) (m : List (SubId × Handler)) :
    List (String × List (SubId × Handler)) → List (String × List (SubId × Handler))
  | [] => [(e, m)]
  | (k, v) :: rest => if k = e then (e, m) :: rest else (k, v) :: setEv e m rest

/-- The inner map stored for event `e`, defaulting to the not-yet-created
empty map (as the dispatch code does with `_this.handlers[eventName]`). -/
def subsOf (e : String) (s : EmitterState) : List (SubId × Handler) :=
  (lookupEv e s.handlers).getD []

/-- `EventEmitter.on` (EventEmitter.ts, lines 535-550): allocate a fresh
subscription id from the post-incremented counter, store the handler under
`(eventName, id)` (creating the inner map if absent), and return the id: the
returned canceller is `this.cancel.bind(this, subscriptionId)`, which is
fully determined by the id, so the id stands for the cancel handle. -/
def onEvent (e : String) (h : Handler) (s : EmitterState) : SubId × EmitterState :=
  (s.nextSubscriptionIdNumber,
    { handlers := setEv e (setId s.nextSubscriptionIdNumber h (subsOf e s)) s.handlers
      nextSubscriptionIdNumber := s.nextSubscriptionIdNumber + 1 })

/-- JS `delete eventHandlers[subscriptionId]`: remove the key, keeping the
other entries in order; removing an absent key changes nothing. -/
def delId (j : SubId) : List (SubId × Handler) → List (SubId × Handler)
  | [] => []
  | (k, v) :: rest => if k = j then delId j rest else (k, v) :: delId j rest

/-- `EventEmitter.cancel` (EventEmitter.ts, lines 560-572): for every event
name present in the outer map, delete the property `subscriptionId` from the
inner map; absent ids are silently ignored. -/
def cancel (subscriptionId : SubId) (s : EmitterState) : EmitterState :=
  { s with handlers := s.handlers.map (fun p => (p.1, delId subscriptionId p.2)) }

/-- `AbstractEventSource.once` (AbstractEventSource.ts, lines 124-141): wrap
the handler so that the wrapper first calls the canceller returned by the
`on` call (bound to the id that call allocates, which is the current counter
value) and then runs the real handler with the same arguments. -/
def once (e : String) (h : Handler) (s : EmitterState) : SubId × EmitterState :=
  onEvent e (HAct.cancelHandle s.nextSubscriptionIdNumber :: h) s

/-- `AbstractEventSource.onceAsPromise` (AbstractEventSource.ts, lines
146-161): subscribe, via `once`, a handler that resolves the returned
promise with the received argument tuple.  Resolution is modelled as a
`record tag` log entry, where the fresh `tag` names this promise. -/
def onceAsPromise (tag : Nat) (e : String) (s : EmitterState) : SubId × EmitterState :=
  once e [HAct.record tag] s

/-- A non-nullish entry of the handler map passed to
`AbstractEventSource.subscribe`: either a plain handler function, or the
`{ type: "once", handler }` marker object produced by `once` of once.ts. -/
inductive HandlerMapEntry : Type where
  | plainFn (h : Handler)
  | marked (h : Handler)

/-- Discrimination performed by `isOnceEventHandler` on handler-map entries
(see `isOnceEventHandler` below for the JS-value-level predicate): exactly
the marker objects pass the test. -/
def HandlerMapEntry.isOnce : HandlerMapEntry → Bool
  | .plainFn _ => false
  | .marked _ => true

/-- The underlying handler of a handler-map entry. -/
def HandlerMapEntry.body : HandlerMapEntry → Handler
  | .plainFn h => h
  | .marked h => h

/-- `AbstractEventSource.subscribe` (AbstractEventSource.ts, lines 166-216):
iterate the own keys of the handler map in order, skip nullish entries,
subscribe each remaining entry via `once` when it is a once-marker and via
`on` otherwise, and collect the individual cancel handles (ids).  The
returned batch canceller calls the collected handles in order, which is
`batchCancel` below. -/
def subscribe : List (String × Option HandlerMapEntry) → EmitterState → List SubId × EmitterState
  | [], s => ([], s)
  | (_, none) :: rest, s => subscribe rest s
  | (e, some entry) :: rest, s =>
      let r := if entry.isOnce then once e entry.body s else onEvent e entry.body s
      let r2 := subscribe rest r.2
      (r.1 :: r2.1, r2.2)

/-- The batch canceller returned by `subscribe`: call each collected cancel
handle in index order. -/
def batchCancel (ids : List SubId) (s : EmitterState) : EmitterState :=
  ids.foldl (fun t i => cancel i t) s

/-- Result of one dispatch (`emit.eventName(args...)`): the final registry
state, the log of handler invocations `(tag, argument tuple)` in invocation
order, the subscription ids invoked in order, and whether an exception
escaped the dispatch. -/
structure EmitResult (α : Type) where
  state : EmitterState
  log : List (Nat × α)
  invoked : List SubId
  threw : Bool

/-- Run one action of a handler body: returns the new state, the log entries
produced, and whether the action threw. -/
def runAct (args : α) (s : EmitterState) : HAct → EmitterState × List (Nat × α) × Bool
  | .record tag => (s, [(tag, args)], false)
  | .cancelHandle i => (cancel i s, [], false)
  | .onNew e b => ((onEvent e b s).2, [], false)
  | .onceNew e b => ((once e b s).2, [], false)
  | .throwErr => (s, [], true)

/-- Run a handler body in order; a throw aborts the rest of the body. -/
def runActs (args : α) : Handler → EmitterState → EmitterState × List (Nat × α) × Bool
  | [], s => (s, [], false)
  | a :: rest, s =>
      let r1 := runAct args s a
      if r1.2.2 then (r1.1, r1.2.1, true)
      else
        let r2 := runActs args rest r1.1
        (r2.1, r1.2.1 ++ r2.2.1, r2.2.2)

/-- The dispatch loop of the function returned by
`EventEmitter.createEventHandlerCaller` (EventEmitter.ts, lines 434-456):
walk the ordered snapshot of subscription ids taken when dispatch begins; at
each id re-read the live (possibly mutated) inner map, skipping ids that
were deleted during the pass; ids added during the pass are not in the
snapshot; a handler that throws aborts the loop and the exception
propagates out of the dispatch. -/
def emitLoop (e : String) (args : α) : List SubId → EmitterState → EmitResult α
  | [], s => ⟨s, [], [], false⟩
  | i :: rest, s =>
      match lookupId i (subsOf e s) with
      | none => emitLoop e args rest s
      | some h =>
          let r1 := runActs args h s
          if r1.2.2 then ⟨r1.1, r1.2.1, [i], true⟩
          else
            let r := emitLoop e args rest r1.1
            ⟨r.state, r1.2.1 ++ r.log, i :: r.invoked, r.threw⟩

/-- `emit.eventName(args...)`: if the inner map for the event was never
created, return immediately; otherwise run the snapshot loop over the ids
present at dispatch start, in insertion order. -/
def emit (e : String) (args : α) (s : EmitterState) : EmitResult α :=
  match lookupEv e s.handlers with
  | none => ⟨s, [], [], false⟩
  | some m => emitLoop e args (m.map (·.1)) s

/-- All subscription ids present anywhere in the registry. -/
def allIds (s : EmitterState) : List SubId :=
  (s.handlers.map (fun p => p.2.map (·.1))).foldr (· ++ ·) []

/-- Registry well-formedness, true of every reachable state: every stored id
was allocated by the counter, event names are not duplicated in the outer
map, and ids are not duplicated within an inner map. -/
def WF (s : EmitterState) : Prop :=
  (∀ i ∈ allIds s, i < s.nextSubscriptionIdNumber) ∧
  (s.handlers.map (·.1)).Nodup ∧
  (∀ p ∈ s.handlers, (p.2.map (·.1)).Nodup)

instance decidableWF (s : EmitterState) : Decidable (WF s) := by
  unfold WF
  infer_instance

/-- The freshly constructed emitter. -/
def initState : EmitterState := ⟨[], 0⟩

/-- An action is benign when it neither cancels a subscription nor throws
(it may record and register new subscriptions). -/
def benignAct : HAct → Bool
  | .record _ => true
  | .cancelHandle _ => false
  | .onNew _ _ => true
  | .onceNew _ _ => true
  | .throwErr => false

/-- A handler is benign when each of its top-level actions is. -/
def benignH (h : Handler) : Bool := h.all benignAct

/-- Every handler currently subscribed to event `e` is benign. -/
def benignE (e : String) (s : EmitterState) : Bool :=
  (subsOf e s).all (fun p => benignH p.2)

/-- The tags recorded by the top-level `record` actions of a handler, in
order. -/
def recTags : Handler → List Nat
  | [] => []
  | .record t :: rest => t :: recTags rest
  | .cancelHandle _ :: rest => recTags rest
  | .onNew _ _ :: rest => recTags rest
  | .onceNew _ _ :: rest => recTags rest
  | .throwErr :: rest => recTags rest

/-- The log a handler contributes when run to completion with argument
tuple `args`. -/
def recordsOf (h : Handler) (args : α) : List (Nat × α) :=
  (recTags h).map (fun t => (t, args))

/-- The handler stored for subscription `i` of event `e`, if any. -/
def lookupSub (e : String) (i : SubId) (s : EmitterState) : Option Handler :=
  lookupId i (subsOf e s)

/-- Concatenation of the per-id log contributions over a snapshot. -/
def concatMap (f : SubId → List (Nat × α)) : List SubId → List (Nat × α)
  | [] => []
  | i :: rest => f i ++ concatMap f rest

/-- The log produced by running, in order, every handler of an inner map to
completion with argument tuple `args`. -/
def pairLogs (m : List (SubId × Handler)) (args : α) : List (Nat × α) :=
  match m with
  | [] => []
  | p :: rest => recordsOf p.2 args ++ pairLogs rest args

/-- Any operation a client can perform on the emitter after some point in
time: subscribe (in each of the three ways), call a cancel handle, or
dispatch an event. -/
inductive Op (α : Type) : Type where
  | opOn (e : String) (h : Handler)
  | opOnce (e : String) (h : Handler)
  | opSubscribe (entries : List (String × Option HandlerMapEntry))
  | opCancel (i : SubId)
  | opEmit (e : String) (args : α)

/-- Apply one operation; the result also reports which subscription ids were
invoked and the handler log produced (non-empty only for a dispatch). -/
def applyOp : Op α → EmitterState → EmitterState × List SubId × List (Nat × α)
  | .opOn e h, s => ((onEvent e h s).2, [], [])
  | .opOnce e h, s => ((once e h s).2, [], [])
  | .opSubscribe entries, s => ((subscribe entries s).2, [], [])
  | .opCancel i, s => (cancel i s, [], [])
  | .opEmit e args, s => ((emit e args s).state, (emit e args s).invoked, (emit e args s).log)

/-- Apply a sequence of operations, accumulating invoked ids and logs. -/
def applyOps : List (Op α) → EmitterState → EmitterState × List SubId × List (Nat × α)
  | [], s => (s, [], [])
  | op :: rest, s =>
      let r1 := applyOp op s
      let r2 := applyOps rest r1.1
      (r2.1, r1.2.1 ++ r2.2.1, r1.2.2 ++ r2.2.2)

/-- An action is tame for `j` when it does not throw and the only cancel
handle it may call is the one for subscription `j`. -/
def tameAct (j : SubId) : HAct → Bool
  | .record _ => true
  | .cancelHandle k => decide (k = j)
  | .onNew _ _ => true
  | .onceNew _ _ => true
  | .throwErr => false

/-- A handler is tame for `j` when each of its top-level actions is. -/
def tameH (j : SubId) (h : Handler) : Bool := h.all (tameAct j)

mutual

/-- The tags occurring anywhere in a handler body, including inside the
bodies of the subscriptions it would register via `onNew`/`onceNew`. -/
def deepTagsAct : HAct → List Nat
  | .record t => [t]
  | .cancelHandle _ => []
  | .onNew _ b => deepTagsActs b
  | .onceNew _ b => deepTagsActs b
  | .throwErr => []

/-- The deep tags of a handler body, in order. -/
def deepTagsActs : List HAct → List Nat
  | [] => []
  | a :: rest => deepTagsAct a ++ deepTagsActs rest

end

/-- The deep tags of every handler stored in an inner map. -/
def deepTagsSubs : List (SubId × Handler) → List Nat
  | [] => []
  | q :: rest => deepTagsActs q.2 ++ deepTagsSubs rest

/-- The deep tags of every handler stored under every event name. -/
def deepTagsEv : List (String × List (SubId × Handler)) → List Nat
  | [] => []
  | p :: rest => deepTagsSubs p.2 ++ deepTagsEv rest

/-- The deep tags of every handler stored anywhere in the registry. -/
def deepTagsState (s : EmitterState) : List Nat := deepTagsEv s.handlers

/-- The deep tags of the handler bodies of a handler map. -/
def entriesTags : List (String × Option HandlerMapEntry) → List Nat
  | [] => []
  | (_, none) :: rest => entriesTags rest
  | (_, some en) :: rest => deepTagsActs en.body ++ entriesTags rest

/-- The deep tags a future operation can introduce into the registry. -/
def opTags : Op α → List Nat
  | .opOn _ h => deepTagsActs h
  | .opOnce _ h => deepTagsActs h
  | .opSubscribe entries => entriesTags entries
  | .opCancel _ => []
  | .opEmit _ _ => []

/-- The promise tag `tag` is confined to subscription `j`: every handler
stored in the registry under a subscription id other than `j` does not
mention `tag` anywhere in its body. -/
def TagConfined (tag : Nat) (j : SubId) (s : EmitterState) : Prop :=
  ∀ p ∈ s.handlers, ∀ q ∈ p.2, q.1 ≠ j → tag ∉ deepTagsActs q.2

/-- Model of the JS runtime values relevant to `isOnceEventHandler` of
once.ts: functions (with their own properties), plain objects, primitives,
`null` and `undefined`. -/
inductive JSVal : Type where
  | vfunc (props : List (String × JSVal))
  | vobj (props : List (String × JSVal))
  | vstr (str : String)
  | vnum (n : Int)
  | vbool (b : Bool)
  | vnull
  | vundefined

/-- The JS `typeof` operator on the modelled values (`typeof null` is
famously `"object"`; `typeof` of any function is `"function"`). -/
def typeofVal : JSVal → String
  | .vfunc _ => "function"
  | .vobj _ => "object"
  | .vnull => "object"
  | .vstr _ => "string"
  | .vnum _ => "number"
  | .vbool _ => "boolean"
  | .vundefined => "undefined"

/-- Own-property lookup, `undefined` when the key is absent. -/
def lookupProp (k : String) : List (String × JSVal) → JSVal
  | [] => .vundefined
  | (k', v) :: rest => if k' = k then v else lookupProp k rest

/-- JS property read `value.type`: functions and objects expose their own
properties; reading a property of a primitive yields no own property here. -/
def getProp : JSVal → String → JSVal
  | .vfunc props, k => lookupProp k props
  | .vobj props, k => lookupProp k props
  | _, _ => .vundefined

/-- JS truthiness of the modelled values. -/
def truthy : JSVal → Bool
  | .vundefined => false
  | .vnull => false
  | .vbool b => b
  | .vnum n => decide (n ≠ 0)
  | .vstr str => decide (str ≠ "")
  | .vfunc _ => true
  | .vobj _ => true

/-- JS strict equality `value === "once"`: true exactly for the string
value `"once"`. -/
def strictEqOnceStr : JSVal → Bool
  | .vstr str => decide (str = "once")
  | _ => false

/-- `isOnceEventHandler` (once.ts, lines 24-26):
`typeof value === "object" && value.type && value.type === "once"`. -/
def isOnceEventHandler (v : JSVal) : Bool :=
  decide (typeofVal v = "object") &&
    (truthy (getProp v "type") && strictEqOnceStr (getProp v "type"))

/-- `once` of once.ts (lines 10-17): the marker object
`{ type: "once", handler: handler }` wrapping a handler value. -/
def onceMarker (h : JSVal) : JSVal :=
  .vobj [("type", .vstr "once"), ("handler", h)]

/-- Example registry: one subscription whose handler re-subscribes to the
same event while being dispatched. -/
def wNew : EmitterState :=
  (onEvent "e" [HAct.record 0, HAct.onNew "e" [HAct.record 1]] initState).2

/-- Example registry: a single plain subscription. -/
def wOne : EmitterState := (onEvent "e" [HAct.record 5] initState).2

/-- Example registry: two subscriptions to the same event. -/
def wTwo : EmitterState :=
  (onEvent "a" [HAct.record 1] (onEvent "a" [HAct.record 0] initState).2).2

/-- Example registry: three subscriptions to the same event; the second one
(id 1) cancels the third one (id 2) when invoked. -/
def wCancelSib : EmitterState :=
  (onEvent "e" [HAct.record 20]
    (onEvent "e" [HAct.record 10, HAct.cancelHandle 2]
      (onEvent "e" [HAct.record 0] initState).2).2).2

/-- Example handler map with a plain entry, a once-marked entry and a
nullish entry. -/
def wEntries : List (String × Option HandlerMapEntry) :=
  [("a", some (HandlerMapEntry.plainFn [HAct.record 0])),
   ("b", some (HandlerMapEntry.marked [HAct.record 1])),
   ("c", none)]

theorem lookupId_setId_self (i : SubId) (h : Handler) (m : List (SubId × Handler)) :
    lookupId i (setId i h m) = some h := by
  induction m with
  | nil => simp [setId, lookupId]
  | cons p rest ih =>
    obtain ⟨k, v⟩ := p
    by_cases hk : k = i
    · simp [setId, hk, lookupId]
    · simp [setId, hk, lookupId, ih]

theorem lookupId_setId_ne (i j : SubId) (h : Handler) (m : List (SubId × Handler))
    (hne : j ≠ i) : lookupId j (setId i h m) = lookupId j m := by
  induction m with
  | nil => simp [setId, lookupId, Ne.symm hne]
  | cons p rest ih =>
    obtain ⟨k, v⟩ := p
    by_cases hk : k = i
    · subst hk
      simp [setId, lookupId, hne, Ne.symm hne]
    · simp [setId, hk, lookupId, ih]

theorem lookupEv_setEv_self (e : String) (m : List (SubId × Handler))
    (l : List (String × List (SubId × Handler))) : lookupEv e (setEv e m l) = some m := by
  induction l with
  | nil => simp [setEv, lookupEv]
  | cons p rest ih =>
    obtain ⟨k, v⟩ := p
    by_cases hk : k = e
    · simp [setEv, hk, lookupEv]
    · simp [setEv, hk, lookupEv, ih]

theorem lookupEv_setEv_ne (e e' : String) (m : List (SubId × Handler))
    (l : List (String × List (SubId × Handler))) (hne : e' ≠ e) :
    lookupEv e' (setEv e m l) = lookupEv e' l := by
  induction l with
  | nil => simp [setEv, lookupEv, Ne.symm hne]
  | cons p rest ih =>
    obtain ⟨k, v⟩ := p
    by_cases hk : k = e
    · subst hk
      simp [setEv, lookupEv, hne, Ne.symm hne]
    · simp [setEv, hk, lookupEv, ih]

theorem lookupEv_map_delId (e : String) (j : SubId)
    (l : List (String × List (SubId × Handler))) :
    lookupEv e (l.map (fun p => (p.1, delId j p.2))) =
      (lookupEv e l).map (delId j) := by
  induction l with
  | nil => simp [lookupEv]
  | cons p rest ih =>
    obtain ⟨k, v⟩ := p
    by_cases hk : k = e
    · simp [lookupEv, hk]
    · simp [lookupEv, hk, ih]

theorem lookupId_delId_self (j : SubId) (m : List (SubId × Handler)) :
    lookupId j (delId j m) = none := by
  induction m with
  | nil => simp [delId, lookupId]
  | cons p rest ih =>
    obtain ⟨k, v⟩ := p
    by_cases hk : k = j
    · simp [delId, hk, ih]
    · simp [delId, hk, lookupId, ih]

theorem lookupId_delId_ne (i j : SubId) (m : List (SubId × Handler)) (hne : i ≠ j) :
    lookupId i (delId j m) = lookupId i m := by
  induction m with
  | nil => simp [delId]
  | cons p rest ih =>
    obtain ⟨k, v⟩ := p
    by_cases hkj : k = j
    · subst hkj
      simp [delId, lookupId, Ne.symm hne, ih]
    · by_cases hki : k = i
      · simp [delId, hkj, hki, lookupId, hne]
      · simp [delId, hkj, hki, lookupId, ih]

theorem subsOf_cancel (e : String) (j : SubId) (s : EmitterState) :
    subsOf e (cancel j s) = delId j (subsOf e s) := by
  unfold subsOf cancel
  rw [lookupEv_map_delId]
  cases lookupEv e s.handlers <;> simp [delId]

theorem lookupSub_cancel_self (e : String) (j : SubId) (s : EmitterState) :
    lookupSub e j (cancel j s) = none := by
  rw [lookupSub, subsOf_cancel, lookupId_delId_self]

theorem lookupSub_cancel_ne (e : String) (i j : SubId) (s : EmitterState) (hne : i ≠ j) :
    lookupSub e i (cancel j s) = lookupSub e i s := by
  rw [lookupSub, subsOf_cancel, lookupId_delId_ne _ _ _ hne, lookupSub]

theorem subsOf_onEvent_self (e : String) (h : Handler) (s : EmitterState) :
    subsOf e (onEvent e h s).2 = setId s.nextSubscriptionIdNumber h (subsOf e s) := by
  simp [onEvent, subsOf, lookupEv_setEv_self]

theorem subsOf_onEvent_ne (e e' : String) (h : Handler) (s : EmitterState) (hne : e' ≠ e) :
    subsOf e' (onEvent e h s).2 = subsOf e' s := by
  simp [onEvent, subsOf, lookupEv_setEv_ne _ _ _ _ hne]

theorem lookupSub_onEvent (e e' : String) (i : SubId) (h : Handler) (s : EmitterState)
    (hlt : i ≠ s.nextSubscriptionIdNumber) :
    lookupSub e' i (onEvent e h s).2 = lookupSub e' i s := by
  by_cases he : e' = e
  · subst he
    rw [lookupSub, subsOf_onEvent_self, lookupId_setId_ne _ _ _ _ hlt, lookupSub]
  · rw [lookupSub, subsOf_onEvent_ne _ _ _ _ he, lookupSub]

theorem lookupSub_onEvent_self (e : String) (h : Handler) (s : EmitterState) :
    lookupSub e s.nextSubscriptionIdNumber (onEvent e h s).2 = some h := by
  rw [lookupSub, subsOf_onEvent_self, lookupId_setId_self]

theorem onEvent_next (e : String) (h : Handler) (s : EmitterState) :
    (onEvent e h s).2.nextSubscriptionIdNumber = s.nextSubscriptionIdNumber + 1 := rfl

theorem cancel_next (j : SubId) (s : EmitterState) :
    (cancel j s).nextSubscriptionIdNumber = s.nextSubscriptionIdNumber := rfl

theorem lookupId_eq_none_iff (i : SubId) (m : List (SubId × Handler)) :
    lookupId i m = none ↔ i ∉ m.map (·.1) := by
  induction m with
  | nil => simp [lookupId]
  | cons p rest ih =>
    obtain ⟨k, v⟩ := p
    by_cases hk : k = i
    · simp [lookupId, hk]
    · simp [lookupId, hk, ih, Ne.symm hk]

theorem mem_keys_of_lookupId (i : SubId) (m : List (SubId × Handler)) (h : Handler)
    (hl : lookupId i m = some h) : i ∈ m.map (·.1) := by
  by_contra hmem
  rw [← lookupId_eq_none_iff] at hmem
  rw [hmem] at hl
  exact Option.noConfusion hl

theorem lookupEv_eq_none_iff (e : String) (l : List (String × List (SubId × Handler))) :
    lookupEv e l = none ↔ e ∉ l.map (·.1) := by
  induction l with
  | nil => simp [lookupEv]
  | cons p rest ih =>
    obtain ⟨k, v⟩ := p
    by_cases hk : k = e
    · simp [lookupEv, hk]
    · simp [lookupEv, hk, ih, Ne.symm hk]

theorem lookupEv_some_mem (e : String) (l : List (String × List (SubId × Handler)))
    (m : List (SubId × Handler)) (hl : lookupEv e l = some m) : (e, m) ∈ l := by
  induction l with
  | nil => exact Option.noConfusion hl
  | cons p rest ih =>
    obtain ⟨k, v⟩ := p
    by_cases hk : k = e
    · subst hk
      simp only [lookupEv, if_pos rfl] at hl
      injection hl with hl
      subst hl
      exact List.mem_cons_self _ _
    · simp only [lookupEv, if_neg hk] at hl
      exact List.mem_cons_of_mem _ (ih hl)

theorem mem_allIds (i : SubId) (s : EmitterState) :
    i ∈ allIds s ↔ ∃ p ∈ s.handlers, i ∈ p.2.map (·.1) := by
  obtain ⟨l, n⟩ := s
  induction l with
  | nil => simp [allIds]
  | cons p rest ih =>
    simp only [allIds, List.map_cons, List.foldr_cons, List.mem_append] at *
    constructor
    · rintro (hp | hrest)
      · exact ⟨p, List.mem_cons_self _ _, hp⟩
      · obtain ⟨q, hq, hi⟩ := ih.mp hrest
        exact ⟨q, List.mem_cons_of_mem _ hq, hi⟩
    · rintro ⟨q, hq, hi⟩
      rcases List.mem_cons.mp hq with hq | hq
      · exact Or.inl (hq ▸ hi)
      · exact Or.inr (ih.mpr ⟨q, hq, hi⟩)

theorem mem_allIds_of_lookupSub (e : String) (i : SubId) (s : EmitterState) (h : Handler)
    (hl : lookupSub e i s = some h) : i ∈ allIds s := by
  rw [lookupSub, subsOf] at hl
  cases hev : lookupEv e s.handlers with
  | none => rw [hev] at hl; exact Option.noConfusion hl
  | some m =>
    rw [hev] at hl
    exact (mem_allIds i s).mpr ⟨(e, m), lookupEv_some_mem _ _ _ hev, mem_keys_of_lookupId _ _ _ hl⟩

theorem lookupSub_eq_none_of_not_mem (e : String) (i : SubId) (s : EmitterState)
    (h : i ∉ allIds s) : lookupSub e i s = none := by
  cases hl : lookupSub e i s with
  | none => rfl
  | some hh => exact absurd (mem_allIds_of_lookupSub e i s hh hl) h

theorem lt_next_of_lookupSub (e : String) (i : SubId) (s : EmitterState) (h : Handler)
    (hwf : WF s) (hl : lookupSub e i s = some h) : i < s.nextSubscriptionIdNumber :=
  hwf.1 i (mem_allIds_of_lookupSub e i s h hl)

theorem delId_keys_sublist (j : SubId) (m : List (SubId × Handler)) :
    List.Sublist ((delId j m).map (·.1)) (m.map (·.1)) := by
  induction m with
  | nil => simp [delId]
  | cons p rest ih =>
    obtain ⟨k, v⟩ := p
    by_cases hk : k = j
    · simpa [delId, hk] using ih.trans (List.sublist_cons_self _ _)
    · simpa [delId, hk] using ih.cons₂ k

theorem WF_cancel (j : SubId) (s : EmitterState) (hwf : WF s) : WF (cancel j s) := by
  obtain ⟨hb, ho, hi⟩ := hwf
  refine ⟨?_, ?_, ?_⟩
  · intro i hmem
    rw [mem_allIds] at hmem
    obtain ⟨p, hp, hip⟩ := hmem
    simp only [cancel, List.mem_map] at hp
    obtain ⟨q, hq, rfl⟩ := hp
    rw [cancel_next]
    exact hb i ((mem_allIds i s).mpr ⟨q, hq, (delId_keys_sublist j q.2).subset hip⟩)
  · simpa [cancel, List.map_map, Function.comp] using ho
  · intro p hp
    simp only [cancel, List.mem_map] at hp
    obtain ⟨q, hq, rfl⟩ := hp
    exact (hi q hq).sublist (delId_keys_sublist j q.2)

theorem setEv_mem (e : String) (m : List (SubId × Handler))
    (l : List (String × List (SubId × Handler))) (p : String × List (SubId × Handler))
    (hp : p ∈ setEv e m l) : p ∈ l ∨ p = (e, m) := by
  induction l with
  | nil => simpa [setEv] using hp
  | cons q rest ih =>
    obtain ⟨k, v⟩ := q
    by_cases hk : k = e
    · simp only [setEv, if_pos hk] at hp
      rcases List.mem_cons.mp hp with hp | hp
      · exact Or.inr hp
      · exact Or.inl (List.mem_cons_of_mem _ hp)
    · simp only [setEv, if_neg hk] at hp
      rcases List.mem_cons.mp hp with hp | hp
      · exact Or.inl (hp ▸ List.mem_cons_self _ _)
      · rcases ih hp with h | h
        · exact Or.inl (List.mem_cons_of_mem _ h)
        · exact Or.inr h

theorem setEv_absent (e : String) (m : List (SubId × Handler))
    (l : List (String × List (SubId × Handler))) (h : lookupEv e l = none) :
    setEv e m l = l ++ [(e, m)] := by
  induction l with
  | nil => simp [setEv]
  | cons q rest ih =>
    obtain ⟨k, v⟩ := q
    by_cases hk : k = e
    · simp [lookupEv, hk] at h
    · simp only [lookupEv, if_neg hk] at h
      simp [setEv, hk, ih h]

theorem setEv_keys_present (e : String) (m m0 : List (SubId × Handler))
    (l : List (String × List (SubId × Handler))) (h : lookupEv e l = some m0) :
    (setEv e m l).map (·.1) = l.map (·.1) := by
  induction l with
  | nil => exact Option.noConfusion h
  | cons q rest ih =>
    obtain ⟨k, v⟩ := q
    by_cases hk : k = e
    · simp [setEv, hk]
    · simp only [lookupEv, if_neg hk] at h
      simp [setEv, hk, ih h]

theorem setId_absent (i : SubId) (h : Handler) (m : List (SubId × Handler))
    (hl : lookupId i m = none) : setId i h m = m ++ [(i, h)] := by
  induction m with
  | nil => simp [setId]
  | cons q rest ih =>
    obtain ⟨k, v⟩ := q
    by_cases hk : k = i
    · simp [lookupId, hk] at hl
    · simp only [lookupId, if_neg hk] at hl
      simp [setId, hk, ih hl]

theorem subsOf_keys_subset_allIds (e : String) (s : EmitterState) (i : SubId)
    (hmem : i ∈ (subsOf e s).map (·.1)) : i ∈ allIds s := by
  rw [subsOf] at hmem
  cases hev : lookupEv e s.handlers with
  | none => rw [hev] at hmem; simp at hmem
  | some m =>
    rw [hev] at hmem
    exact (mem_allIds i s).mpr ⟨(e, m), lookupEv_some_mem _ _ _ hev, hmem⟩

theorem subsOf_keys_nodup (e : String) (s : EmitterState) (hwf : WF s) :
    ((subsOf e s).map (·.1)).Nodup := by
  rw [subsOf]
  cases hev : lookupEv e s.handlers with
  | none => simp
  | some m => exact hwf.2.2 (e, m) (lookupEv_some_mem _ _ _ hev)

theorem lookupId_next_subsOf (e : String) (s : EmitterState) (hwf : WF s) :
    lookupId s.nextSubscriptionIdNumber (subsOf e s) = none := by
  rw [lookupId_eq_none_iff]
  intro hmem
  exact absurd (hwf.1 _ (subsOf_keys_subset_allIds e s _ hmem)) (lt_irrefl _)

theorem WF_onEvent (e : String) (h : Handler) (s : EmitterState) (hwf : WF s) :
    WF (onEvent e h s).2 := by
  obtain ⟨hb, ho, hi⟩ := hwf
  have hnotin : lookupId s.nextSubscriptionIdNumber (subsOf e s) = none :=
    lookupId_next_subsOf e s ⟨hb, ho, hi⟩
  have hset : setId s.nextSubscriptionIdNumber h (subsOf e s) =
      subsOf e s ++ [(s.nextSubscriptionIdNumber, h)] := setId_absent _ _ _ hnotin
  refine ⟨?_, ?_, ?_⟩
  · intro i hmem
    rw [mem_allIds] at hmem
    obtain ⟨p, hp, hip⟩ := hmem
    simp only [onEvent] at hp
    rcases setEv_mem _ _ _ _ hp with hold | hnew
    · exact Nat.lt_succ_of_lt (hb i ((mem_allIds i s).mpr ⟨p, hold, hip⟩))
    · subst hnew
      simp only [hset, List.map_append, List.mem_append, List.map_cons, List.map_nil,
        List.mem_singleton] at hip
      rcases hip with hip | hip
      · exact Nat.lt_succ_of_lt (hb i (subsOf_keys_subset_allIds e s i hip))
      · simp [onEvent, hip]
  · simp only [onEvent]
    cases hev : lookupEv e s.handlers with
    | none =>
      rw [setEv_absent _ _ _ hev]
      have he : e ∉ s.handlers.map (·.1) := (lookupEv_eq_none_iff e s.handlers).mp hev
      simp only [List.map_append, List.map_cons, List.map_nil]
      rw [List.nodup_append]
      exact ⟨ho, List.nodup_singleton _, by simpa using he⟩
    | some m0 => rw [setEv_keys_present _ _ m0 _ hev]; exact ho
  · intro p hp
    simp only [onEvent] at hp
    rcases setEv_mem _ _ _ _ hp with hold | hnew
    · exact hi p hold
    · subst hnew
      simp only [hset, List.map_append, List.map_cons, List.map_nil]
      rw [List.nodup_append]
      refine ⟨subsOf_keys_nodup e s ⟨hb, ho, hi⟩, List.nodup_singleton _, ?_⟩
      intro a ha hb'
      simp only [List.mem_singleton] at hb'
      subst hb'
      rw [lookupId_eq_none_iff] at hnotin
      exact hnotin ha

theorem WF_once (e : String) (h : Handler) (s : EmitterState) (hwf : WF s) :
    WF (once e h s).2 :=
  WF_onEvent _ _ _ hwf

theorem once_next (e : String) (h : Handler) (s : EmitterState) :
    (once e h s).2.nextSubscriptionIdNumber = s.nextSubscriptionIdNumber + 1 := rfl

theorem WF_initState : WF initState := by
  refine ⟨?_, ?_, ?_⟩ <;> simp [initState, allIds]

theorem runAct_next_mono (args : α) (s : EmitterState) (a : HAct) :
    s.nextSubscriptionIdNumber ≤ (runAct args s a).1.nextSubscriptionIdNumber := by
  cases a <;> simp [runAct, onEvent_next, once_next, cancel_next]

theorem runActs_next_mono (args : α) (h : Handler) (s : EmitterState) :
    s.nextSubscriptionIdNumber ≤ (runActs args h s).1.nextSubscriptionIdNumber := by
  induction h generalizing s with
  | nil => simp [runActs]
  | cons a rest ih =>
    simp only [runActs]
    by_cases ht : (runAct args s a).2.2 = true
    · simpa [ht] using runAct_next_mono args s a
    · simpa [ht] using le_trans (runAct_next_mono args s a) (ih _)

theorem WF_runAct (args : α) (s : EmitterState) (a : HAct) (hwf : WF s) :
    WF (runAct args s a).1 := by
  cases a with
  | record t => exact hwf
  | cancelHandle k => exact WF_cancel k s hwf
  | onNew e b => exact WF_onEvent e b s hwf
  | onceNew e b => exact WF_once e b s hwf
  | throwErr => exact hwf

theorem WF_runActs (args : α) (h : Handler) (s : EmitterState) (hwf : WF s) :
    WF (runActs args h s).1 := by
  induction h generalizing s with
  | nil => exact hwf
  | cons a rest ih =>
    simp only [runActs]
    by_cases ht : (runAct args s a).2.2 = true
    · simpa [ht] using WF_runAct args s a hwf
    · simpa [ht] using ih _ (WF_runAct args s a hwf)

theorem runAct_frame_ne (args : α) (s : EmitterState) (a : HAct) (e : String) (i j : SubId)
    (hlt : i < s.nextSubscriptionIdNumber) (hij : i ≠ j)
    (hc : ∀ k, a = HAct.cancelHandle k → k = j) :
    lookupSub e i (runAct args s a).1 = lookupSub e i s := by
  cases a with
  | record t => rfl
  | cancelHandle k =>
    rw [hc k rfl]
    exact lookupSub_cancel_ne e i j s hij
  | onNew e' b => exact lookupSub_onEvent e' e i b s (Nat.ne_of_lt hlt)
  | onceNew e' b => exact lookupSub_onEvent e' e i _ s (Nat.ne_of_lt hlt)
  | throwErr => rfl

theorem runAct_frame_nocancel (args : α) (s : EmitterState) (a : HAct) (e : String) (i : SubId)
    (hlt : i < s.nextSubscriptionIdNumber) (hnc : ∀ k, a ≠ HAct.cancelHandle k) :
    lookupSub e i (runAct args s a).1 = lookupSub e i s := by
  cases a with
  | record t => rfl
  | cancelHandle k => exact absurd rfl (hnc k)
  | onNew e' b => exact lookupSub_onEvent e' e i b s (Nat.ne_of_lt hlt)
  | onceNew e' b => exact lookupSub_onEvent e' e i _ s (Nat.ne_of_lt hlt)
  | throwErr => rfl

theorem benignAct_no_throw (args : α) (s : EmitterState) (a : HAct)
    (hb : benignAct a = true) : (runAct args s a).2.2 = false := by
  cases a <;> simp_all [benignAct, runAct]

theorem benignAct_no_cancel (a : HAct) (hb : benignAct a = true) :
    ∀ k, a ≠ HAct.cancelHandle k := by
  cases a <;> simp_all [benignAct]

theorem runActs_threw_benign (args : α) (h : Handler) (s : EmitterState)
    (hb : benignH h = true) : (runActs args h s).2.2 = false := by
  induction h generalizing s with
  | nil => simp [runActs]
  | cons a rest ih =>
    rw [benignH, List.all_cons, Bool.and_eq_true] at hb
    simp only [runActs]
    rw [benignAct_no_throw args s a hb.1]
    simpa using ih _ hb.2

theorem runActs_frame_benign (args : α) (h : Handler) (s : EmitterState) (e : String) (i : SubId)
    (hb : benignH h = true) (hlt : i < s.nextSubscriptionIdNumber) :
    lookupSub e i (runActs args h s).1 = lookupSub e i s := by
  induction h generalizing s with
  | nil => rfl
  | cons a rest ih =>
    rw [benignH, List.all_cons, Bool.and_eq_true] at hb
    simp only [runActs]
    rw [benignAct_no_throw args s a hb.1]
    simp only [Bool.false_eq_true, if_false]
    rw [ih _ hb.2 (lt_of_lt_of_le hlt (runAct_next_mono args s a))]
    exact runAct_frame_nocancel args s a e i hlt (benignAct_no_cancel a hb.1)

theorem runActs_log_benign (args : α) (h : Handler) (s : EmitterState)
    (hb : benignH h = true) : (runActs args h s).2.1 = recordsOf h args := by
  induction h generalizing s with
  | nil => simp [runActs, recordsOf, recTags]
  | cons a rest ih =>
    rw [benignH, List.all_cons, Bool.and_eq_true] at hb
    simp only [runActs]
    rw [benignAct_no_throw args s a hb.1]
    simp only [Bool.false_eq_true, if_false]
    cases a with
    | record t => simp [runAct, recordsOf, recTags, ih _ hb.2]
    | cancelHandle k => simp [benignAct] at hb
    | onNew e b => simp [runAct, recordsOf, recTags, ih _ hb.2]
    | onceNew e b => simp [runAct, recordsOf, recTags, ih _ hb.2]
    | throwErr => simp [benignAct] at hb

theorem setId_mem_keys (i' i : SubId) (h : Handler) (m : List (SubId × Handler))
    (hmem : i' ∈ (setId i h m).map (·.1)) : i' ∈ m.map (·.1) ∨ i' = i := by
  induction m with
  | nil => simpa [setId] using hmem
  | cons p rest ih =>
    obtain ⟨k, v⟩ := p
    by_cases hk : k = i
    · subst hk
      rw [show setId k h ((k, v) :: rest) = (k, h) :: rest from by simp [setId]] at hmem
      rw [List.map_cons, List.mem_cons] at hmem
      rcases hmem with h1 | h1
      · exact Or.inr h1
      · exact Or.inl (List.mem_cons_of_mem _ h1)
    · rw [show setId i h ((k, v) :: rest) = (k, v) :: setId i h rest from by simp [setId, hk]]
        at hmem
      rw [List.map_cons, List.mem_cons] at hmem
      rcases hmem with h1 | h1
      · exact Or.inl (by rw [List.map_cons, List.mem_cons]; exact Or.inl h1)
      · rcases ih h1 with h2 | h2
        · exact Or.inl (by rw [List.map_cons, List.mem_cons]; exact Or.inr h2)
        · exact Or.inr h2

theorem mem_allIds_onEvent (i : SubId) (e : String) (h : Handler) (s : EmitterState)
    (hmem : i ∈ allIds (onEvent e h s).2) : i ∈ allIds s ∨ i = s.nextSubscriptionIdNumber := by
  rw [mem_allIds] at hmem
  obtain ⟨p, hp, hip⟩ := hmem
  simp only [onEvent] at hp
  rcases setEv_mem _ _ _ _ hp with hold | hnew
  · exact Or.inl ((mem_allIds i s).mpr ⟨p, hold, hip⟩)
  · subst hnew
    rcases setId_mem_keys i _ _ _ hip with hh | hh
    · exact Or.inl (subsOf_keys_subset_allIds e s i hh)
    · exact Or.inr hh

theorem mem_allIds_cancel (i j : SubId) (s : EmitterState)
    (hmem : i ∈ allIds (cancel j s)) : i ∈ allIds s := by
  rw [mem_allIds] at hmem
  obtain ⟨p, hp, hip⟩ := hmem
  simp only [cancel, List.mem_map] at hp
  obtain ⟨q, hq, rfl⟩ := hp
  exact (mem_allIds i s).mpr ⟨q, hq, (delId_keys_sublist j q.2).subset hip⟩

theorem mem_allIds_runAct (args : α) (i : SubId) (s : EmitterState) (a : HAct)
    (hmem : i ∈ allIds (runAct args s a).1) : i ∈ allIds s ∨ i = s.nextSubscriptionIdNumber := by
  cases a with
  | record t => exact Or.inl hmem
  | cancelHandle k => exact Or.inl (mem_allIds_cancel i k s hmem)
  | onNew e b => exact mem_allIds_onEvent i e b s hmem
  | onceNew e b => exact mem_allIds_onEvent i e _ s hmem
  | throwErr => exact Or.inl hmem

theorem runActs_absent (args : α) (h : Handler) (s : EmitterState) (i : SubId)
    (hna : i ∉ allIds s) (hlt : i < s.nextSubscriptionIdNumber) :
    i ∉ allIds (runActs args h s).1 := by
  induction h generalizing s with
  | nil => exact hna
  | cons a rest ih =>
    simp only [runActs]
    by_cases ht : (runAct args s a).2.2 = true
    · simp only [ht, if_true]
      intro hmem
      rcases mem_allIds_runAct args i s a hmem with hh | hh
      · exact hna hh
      · exact absurd hh (Nat.ne_of_lt hlt)
    · simp only [ht, if_false]
      refine ih _ ?_ (lt_of_lt_of_le hlt (runAct_next_mono args s a))
      intro hmem
      rcases mem_allIds_runAct args i s a hmem with hh | hh
      · exact hna hh
      · exact absurd hh (Nat.ne_of_lt hlt)

theorem emitLoop_invoked_subset (e : String) (args : α) (snap : List SubId) (t : EmitterState) :
    ∀ i ∈ (emitLoop e args snap t).invoked, i ∈ snap := by
  induction snap generalizing t with
  | nil => simp [emitLoop]
  | cons i rest ih =>
    intro j hj
    cases hl : lookupId i (subsOf e t) with
    | none =>
      simp only [emitLoop, hl] at hj
      exact List.mem_cons_of_mem _ (ih t j hj)
    | some h =>
      simp only [emitLoop, hl] at hj
      by_cases ht : (runActs args h t).2.2 = true
      · simp only [ht, if_true] at hj
        simp only [List.mem_singleton] at hj
        exact hj ▸ List.mem_cons_self _ _
      · simp only [ht, if_false] at hj
        rcases List.mem_cons.mp hj with hh | hh
        · exact hh ▸ List.mem_cons_self _ _
        · exact List.mem_cons_of_mem _ (ih _ j hh)

theorem emitLoop_next_mono (e : String) (args : α) (snap : List SubId) (t : EmitterState) :
    t.nextSubscriptionIdNumber ≤ (emitLoop e args snap t).state.nextSubscriptionIdNumber := by
  induction snap generalizing t with
  | nil => simp [emitLoop]
  | cons i rest ih =>
    cases hl : lookupId i (subsOf e t) with
    | none => simpa only [emitLoop, hl] using ih t
    | some h =>
      simp only [emitLoop, hl]
      by_cases ht : (runActs args h t).2.2 = true
      · simpa only [ht, if_true] using runActs_next_mono args h t
      · simp only [ht, if_false]
        exact le_trans (runActs_next_mono args h t) (ih _)

theorem WF_emitLoop (e : String) (args : α) (snap : List SubId) (t : EmitterState)
    (hwf : WF t) : WF (emitLoop e args snap t).state := by
  induction snap generalizing t with
  | nil => exact hwf
  | cons i rest ih =>
    cases hl : lookupId i (subsOf e t) with
    | none => simpa only [emitLoop, hl] using ih t hwf
    | some h =>
      simp only [emitLoop, hl]
      by_cases ht : (runActs args h t).2.2 = true
      · simpa only [ht, if_true] using WF_runActs args h t hwf
      · simp only [ht, if_false]
        exact ih _ (WF_runActs args h t hwf)

theorem emitLoop_absent (e : String) (args : α) (snap : List SubId) (t : EmitterState)
    (j : SubId) (hna : j ∉ allIds t) (hlt : j < t.nextSubscriptionIdNumber) :
    j ∉ (emitLoop e args snap t).invoked ∧ j ∉ allIds (emitLoop e args snap t).state ∧
      j < (emitLoop e args snap t).state.nextSubscriptionIdNumber := by
  induction snap generalizing t with
  | nil => exact ⟨by simp [emitLoop], hna, hlt⟩
  | cons i rest ih =>
    cases hl : lookupId i (subsOf e t) with
    | none => simpa only [emitLoop, hl] using ih t hna hlt
    | some h =>
      have hij : i ≠ j := by
        intro hij
        subst hij
        have hnone : lookupId i (subsOf e t) = none :=
          lookupSub_eq_none_of_not_mem e i t hna
        rw [hnone] at hl
        exact Option.noConfusion hl
      have habs1 : j ∉ allIds (runActs args h t).1 := runActs_absent args h t j hna hlt
      have hlt1 : j < (runActs args h t).1.nextSubscriptionIdNumber :=
        lt_of_lt_of_le hlt (runActs_next_mono args h t)
      simp only [emitLoop, hl]
      by_cases ht : (runActs args h t).2.2 = true
      · simp only [ht, if_true]
        exact ⟨by simpa using Ne.symm hij, habs1, hlt1⟩
      · simp only [ht, if_false]
        obtain ⟨h1, h2, h3⟩ := ih _ habs1 hlt1
        refine ⟨?_, h2, h3⟩
        intro hmem
        rcases List.mem_cons.mp hmem with hh | hh
        · exact hij hh.symm
        · exact h1 hh

theorem emit_invoked_subset_allIds (e : String) (args : α) (s : EmitterState) :
    ∀ i ∈ (emit e args s).invoked, i ∈ allIds s := by
  intro i hi
  cases hev : lookupEv e s.handlers with
  | none => simp only [emit, hev] at hi; simp at hi
  | some m =>
    simp only [emit, hev] at hi
    exact (mem_allIds i s).mpr
      ⟨(e, m), lookupEv_some_mem _ _ _ hev, emitLoop_invoked_subset e args _ s i hi⟩

theorem emit_next_mono (e : String) (args : α) (s : EmitterState) :
    s.nextSubscriptionIdNumber ≤ (emit e args s).state.nextSubscriptionIdNumber := by
  cases hev : lookupEv e s.handlers with
  | none => simp [emit, hev]
  | some m => simpa only [emit, hev] using emitLoop_next_mono e args _ s

theorem WF_emit (e : String) (args : α) (s : EmitterState) (hwf : WF s) :
    WF (emit e args s).state := by
  cases hev : lookupEv e s.handlers with
  | none => simpa [emit, hev] using hwf
  | some m => simpa only [emit, hev] using WF_emitLoop e args _ s hwf

theorem emit_absent (e : String) (args : α) (s : EmitterState) (j : SubId)
    (hna : j ∉ allIds s) (hlt : j < s.nextSubscriptionIdNumber) :
    j ∉ (emit e args s).invoked ∧ j ∉ allIds (emit e args s).state ∧
      j < (emit e args s).state.nextSubscriptionIdNumber := by
  cases hev : lookupEv e s.handlers with
  | none => simp only [emit, hev]; exact ⟨by simp, hna, hlt⟩
  | some m => simpa only [emit, hev] using emitLoop_absent e args _ s j hna hlt

theorem concatMap_congr (f g : SubId → List (Nat × α)) (l : List SubId)
    (h : ∀ i ∈ l, f i = g i) : concatMap f l = concatMap g l := by
  induction l with
  | nil => rfl
  | cons i rest ih =>
    simp only [concatMap]
    rw [h i (List.mem_cons_self _ _), ih (fun j hj => h j (List.mem_cons_of_mem _ hj))]

theorem lookupId_isSome_of_mem_keys (i : SubId) (m : List (SubId × Handler))
    (hmem : i ∈ m.map (·.1)) : ∃ h, lookupId i m = some h := by
  induction m with
  | nil => simp at hmem
  | cons p rest ih =>
    obtain ⟨k, v⟩ := p
    by_cases hk : k = i
    · exact ⟨v, by simp [lookupId, hk]⟩
    · rw [List.map_cons, List.mem_cons] at hmem
      rcases hmem with hh | hh
      · exact absurd hh.symm hk
      · obtain ⟨h, hl⟩ := ih hh
        exact ⟨h, by simp [lookupId, hk, hl]⟩

theorem lookupId_some_mem_pair (i : SubId) (m : List (SubId × Handler)) (h : Handler)
    (hl : lookupId i m = some h) : (i, h) ∈ m := by
  induction m with
  | nil => exact Option.noConfusion hl
  | cons p rest ih =>
    obtain ⟨k, v⟩ := p
    by_cases hk : k = i
    · subst hk
      simp only [lookupId, if_pos rfl] at hl
      injection hl with hl
      subst hl
      exact List.mem_cons_self _ _
    · simp only [lookupId, if_neg hk] at hl
      exact List.mem_cons_of_mem _ (ih hl)

theorem concatMap_lookup_eq_pairLogs (m : List (SubId × Handler)) (args : α)
    (hnd : (m.map (·.1)).Nodup) :
    concatMap (fun i => recordsOf ((lookupId i m).getD []) args) (m.map (·.1)) =
      pairLogs m args := by
  induction m with
  | nil => rfl
  | cons p rest ih =>
    obtain ⟨k, v⟩ := p
    rw [List.map_cons] at hnd ⊢
    rw [List.nodup_cons] at hnd
    simp only [concatMap, pairLogs]
    have hk : lookupId k ((k, v) :: rest) = some v := by simp [lookupId]
    rw [hk]
    simp only [Option.getD_some]
    congr 1
    rw [concatMap_congr _ (fun i => recordsOf ((lookupId i rest).getD []) args) _ ?_]
    · exact ih hnd.2
    · intro i hi
      have hik : k ≠ i := fun hh => hnd.1 (hh ▸ hi)
      simp [lookupId, hik]

theorem emitLoop_benign (e : String) (args : α) (snap : List SubId) (t : EmitterState)
    (hwf : WF t)
    (hp : ∀ i ∈ snap, ∃ h, lookupId i (subsOf e t) = some h ∧ benignH h = true) :
    (emitLoop e args snap t).invoked = snap ∧
    (emitLoop e args snap t).threw = false ∧
    (emitLoop e args snap t).log =
      concatMap (fun i => recordsOf ((lookupId i (subsOf e t)).getD []) args) snap ∧
    (∀ e' k, k < t.nextSubscriptionIdNumber →
      lookupSub e' k (emitLoop e args snap t).state = lookupSub e' k t) := by
  induction snap generalizing t with
  | nil => exact ⟨rfl, rfl, rfl, fun e' k _ => rfl⟩
  | cons i rest ih =>
    obtain ⟨h, hl, hb⟩ := hp i (List.mem_cons_self _ _)
    have hi_lt : i < t.nextSubscriptionIdNumber := lt_next_of_lookupSub e i t h hwf hl
    have hthrew : (runActs args h t).2.2 = false := runActs_threw_benign args h t hb
    have hframe : ∀ e' k, k < t.nextSubscriptionIdNumber →
        lookupSub e' k (runActs args h t).1 = lookupSub e' k t :=
      fun e' k hk => runActs_frame_benign args h t e' k hb hk
    have hwf1 : WF (runActs args h t).1 := WF_runActs args h t hwf
    have hmono : t.nextSubscriptionIdNumber ≤ (runActs args h t).1.nextSubscriptionIdNumber :=
      runActs_next_mono args h t
    have hp1 : ∀ i' ∈ rest, ∃ h', lookupId i' (subsOf e (runActs args h t).1) = some h' ∧
        benignH h' = true := by
      intro i' hi'
      obtain ⟨h', hl', hb'⟩ := hp i' (List.mem_cons_of_mem _ hi')
      have hi'lt : i' < t.nextSubscriptionIdNumber := lt_next_of_lookupSub e i' t h' hwf hl'
      refine ⟨h', ?_, hb'⟩
      have := hframe e i' hi'lt
      rw [lookupSub, lookupSub] at this
      rw [this]
      exact hl'
    obtain ⟨ih1, ih2, ih3, ih4⟩ := ih (runActs args h t).1 hwf1 hp1
    simp only [emitLoop, hl, hthrew, Bool.false_eq_true, if_false]
    refine ⟨by rw [ih1], by rw [ih2], ?_, ?_⟩
    · rw [ih3, runActs_log_benign args h t hb]
      simp only [concatMap]
      rw [hl]
      simp only [Option.getD_some]
      congr 1
      refine concatMap_congr _ _ _ ?_
      intro i' hi'
      obtain ⟨h', hl', _⟩ := hp i' (List.mem_cons_of_mem _ hi')
      have hi'lt : i' < t.nextSubscriptionIdNumber := lt_next_of_lookupSub e i' t h' hwf hl'
      have := hframe e i' hi'lt
      rw [lookupSub, lookupSub] at this
      rw [this]
    · intro e' k hk
      rw [ih4 e' k (lt_of_lt_of_le hk hmono)]
      exact hframe e' k hk

theorem benignE_lookup (e : String) (s : EmitterState) (i : SubId) (h : Handler)
    (hb : benignE e s = true) (hl : lookupId i (subsOf e s) = some h) : benignH h = true := by
  rw [benignE, List.all_eq_true] at hb
  exact hb (i, h) (lookupId_some_mem_pair i _ h hl)

theorem emit_benign (e : String) (args : α) (s : EmitterState)
    (hwf : WF s) (hb : benignE e s = true) :
    (emit e args s).invoked = (subsOf e s).map (·.1) ∧
    (emit e args s).threw = false ∧
    (emit e args s).log = pairLogs (subsOf e s) args ∧
    (∀ e' k, k < s.nextSubscriptionIdNumber →
      lookupSub e' k (emit e args s).state = lookupSub e' k s) := by
  have hp : ∀ i ∈ (subsOf e s).map (·.1),
      ∃ h, lookupId i (subsOf e s) = some h ∧ benignH h = true := by
    intro i hi
    obtain ⟨h, hl⟩ := lookupId_isSome_of_mem_keys i _ hi
    exact ⟨h, hl, benignE_lookup e s i h hb hl⟩
  cases hev : lookupEv e s.handlers with
  | none =>
    have hsub : subsOf e s = [] := by rw [subsOf, hev]; rfl
    refine ⟨?_, ?_, ?_, ?_⟩
    · simp [emit, hev, hsub]
    · simp [emit, hev]
    · simp [emit, hev, hsub, pairLogs]
    · intro e' k _
      simp [emit, hev]
  | some m =>
    have hsub : subsOf e s = m := by rw [subsOf, hev]; rfl
    have hmain := emitLoop_benign e args (m.map (·.1)) s hwf (hsub ▸ hp)
    obtain ⟨h1, h2, h3, h4⟩ := hmain
    simp only [emit, hev]
    refine ⟨by rw [h1, hsub], h2, ?_, h4⟩
    rw [h3, hsub]
    exact concatMap_lookup_eq_pairLogs m args (hsub ▸ subsOf_keys_nodup e s hwf)

theorem subscribe_next_mono (entries : List (String × Option HandlerMapEntry))
    (s : EmitterState) :
    s.nextSubscriptionIdNumber ≤ (subscribe entries s).2.nextSubscriptionIdNumber := by
  induction entries generalizing s with
  | nil => exact le_refl _
  | cons p rest ih =>
    obtain ⟨e, entry⟩ := p
    cases entry with
    | none => exact ih s
    | some en =>
      cases en with
      | plainFn h =>
        simp only [subscribe, HandlerMapEntry.isOnce, HandlerMapEntry.body,
          Bool.false_eq_true, if_false]
        exact le_trans (by rw [onEvent_next]; exact Nat.le_succ _) (ih _)
      | marked h =>
        simp only [subscribe, HandlerMapEntry.isOnce, HandlerMapEntry.body, if_true]
        exact le_trans (by rw [once_next]; exact Nat.le_succ _) (ih _)

theorem mem_allIds_subscribe (entries : List (String × Option HandlerMapEntry))
    (s : EmitterState) (i : SubId) (hmem : i ∈ allIds (subscribe entries s).2) :
    i ∈ allIds s ∨ s.nextSubscriptionIdNumber ≤ i := by
  induction entries generalizing s with
  | nil => exact Or.inl hmem
  | cons p rest ih =>
    obtain ⟨e, entry⟩ := p
    cases entry with
    | none => exact ih s hmem
    | some en =>
      cases en with
      | plainFn hb =>
        simp only [subscribe, HandlerMapEntry.isOnce, HandlerMapEntry.body,
          Bool.false_eq_true, if_false] at hmem
        rcases ih _ hmem with hh | hh
        · rcases mem_allIds_onEvent i e _ s hh with h2 | h2
          · exact Or.inl h2
          · exact Or.inr (le_of_eq h2.symm)
        · rw [onEvent_next] at hh
          exact Or.inr (le_trans (Nat.le_succ _) hh)
      | marked hb =>
        simp only [subscribe, HandlerMapEntry.isOnce, HandlerMapEntry.body, if_true] at hmem
        rcases ih _ hmem with hh | hh
        · rcases mem_allIds_onEvent i e _ s hh with h2 | h2
          · exact Or.inl h2
          · exact Or.inr (le_of_eq h2.symm)
        · rw [once_next] at hh
          exact Or.inr (le_trans (Nat.le_succ _) hh)

theorem WF_subscribe (entries : List (String × Option HandlerMapEntry))
    (s : EmitterState) (hwf : WF s) : WF (subscribe entries s).2 := by
  induction entries generalizing s with
  | nil => exact hwf
  | cons p rest ih =>
    obtain ⟨e, entry⟩ := p
    cases entry with
    | none => exact ih s hwf
    | some en =>
      cases en with
      | plainFn hb =>
        simp only [subscribe, HandlerMapEntry.isOnce, HandlerMapEntry.body,
          Bool.false_eq_true, if_false]
        exact ih _ (WF_onEvent e _ s hwf)
      | marked hb =>
        simp only [subscribe, HandlerMapEntry.isOnce, HandlerMapEntry.body, if_true]
        exact ih _ (WF_once e _ s hwf)

theorem delId_not_mem (j : SubId) (m : List (SubId × Handler)) :
    j ∉ (delId j m).map (·.1) := by
  induction m with
  | nil => simp [delId]
  | cons p rest ih =>
    obtain ⟨k, v⟩ := p
    by_cases hk : k = j
    · simpa [delId, hk] using ih
    · simp only [delId, if_neg hk, List.map_cons, List.mem_cons]
      rintro (hh | hh)
      · exact hk hh.symm
      · exact ih hh

theorem not_mem_allIds_cancel_self (j : SubId) (t : EmitterState) :
    j ∉ allIds (cancel j t) := by
  intro hmem
  rw [mem_allIds] at hmem
  obtain ⟨p, hp, hjp⟩ := hmem
  simp only [cancel, List.mem_map] at hp
  obtain ⟨q, _, rfl⟩ := hp
  exact delId_not_mem j q.2 hjp

theorem delId_idem (j : SubId) (m : List (SubId × Handler)) :
    delId j (delId j m) = delId j m := by
  induction m with
  | nil => rfl
  | cons p rest ih =>
    obtain ⟨k, v⟩ := p
    by_cases hk : k = j
    · simp [delId, hk, ih]
    · simp [delId, hk, ih]

theorem delId_comm (i j : SubId) (m : List (SubId × Handler)) :
    delId i (delId j m) = delId j (delId i m) := by
  induction m with
  | nil => rfl
  | cons p rest ih =>
    obtain ⟨k, v⟩ := p
    by_cases hki : k = i
    · subst hki
      by_cases hkj : k = j
      · subst hkj
        rfl
      · simp [delId, hkj, ih]
    · by_cases hkj : k = j
      · subst hkj
        simp [delId, hki, ih]
      · simp [delId, hki, hkj, ih]

theorem cancel_idem (i : SubId) (t : EmitterState) : cancel i (cancel i t) = cancel i t := by
  simp only [cancel, List.map_map]
  congr 1
  refine List.map_congr_left ?_
  intro p _
  simp [Function.comp, delId_idem]

theorem cancel_comm (i j : SubId) (t : EmitterState) :
    cancel i (cancel j t) = cancel j (cancel i t) := by
  simp only [cancel, List.map_map]
  congr 1
  refine List.map_congr_left ?_
  intro p _
  simp [Function.comp, delId_comm]

theorem cancel_batchCancel_comm (i : SubId) (ids : List SubId) (t : EmitterState) :
    cancel i (batchCancel ids t) = batchCancel ids (cancel i t) := by
  induction ids generalizing t with
  | nil => rfl
  | cons k rest ih =>
    show cancel i (batchCancel rest (cancel k t)) = batchCancel rest (cancel k (cancel i t))
    rw [ih, cancel_comm]

theorem batchCancel_idem (ids : List SubId) (t : EmitterState) :
    batchCancel ids (batchCancel ids t) = batchCancel ids t := by
  induction ids generalizing t with
  | nil => rfl
  | cons i rest ih =>
    show batchCancel rest (cancel i (batchCancel rest (cancel i t))) =
      batchCancel rest (cancel i t)
    rw [cancel_batchCancel_comm, cancel_idem, ih]

theorem batchCancel_absent (ids : List SubId) (t : EmitterState) (j : SubId)
    (hna : j ∉ allIds t) : j ∉ allIds (batchCancel ids t) := by
  induction ids generalizing t with
  | nil => exact hna
  | cons i rest ih =>
    show j ∉ allIds (batchCancel rest (cancel i t))
    exact ih _ (fun hmem => hna (mem_allIds_cancel j i t hmem))

theorem batchCancel_removes (ids : List SubId) (t : EmitterState) (j : SubId)
    (hj : j ∈ ids) : j ∉ allIds (batchCancel ids t) := by
  induction ids generalizing t with
  | nil => simp at hj
  | cons i rest ih =>
    show j ∉ allIds (batchCancel rest (cancel i t))
    rcases List.mem_cons.mp hj with hh | hh
    · exact batchCancel_absent rest (cancel i t) j (hh ▸ not_mem_allIds_cancel_self i t)
    · exact ih (cancel i t) hh

theorem batchCancel_frame (ids : List SubId) (t : EmitterState) (e : String) (k : SubId)
    (hk : k ∉ ids) : lookupSub e k (batchCancel ids t) = lookupSub e k t := by
  induction ids generalizing t with
  | nil => rfl
  | cons i rest ih =>
    show lookupSub e k (batchCancel rest (cancel i t)) = lookupSub e k t
    rw [ih (cancel i t) (fun hh => hk (List.mem_cons_of_mem _ hh))]
    exact lookupSub_cancel_ne e k i t (fun hh => hk (hh ▸ List.mem_cons_self _ _))

theorem applyOp_absent (op : Op α) (t : EmitterState) (j : SubId)
    (hna : j ∉ allIds t) (hlt : j < t.nextSubscriptionIdNumber) :
    j ∉ (applyOp op t).2.1 ∧ j ∉ allIds (applyOp op t).1 ∧
      j < (applyOp op t).1.nextSubscriptionIdNumber := by
  cases op with
  | opOn e h =>
    refine ⟨by simp [applyOp], ?_, ?_⟩
    · intro hmem
      rcases mem_allIds_onEvent j e h t hmem with hh | hh
      · exact hna hh
      · exact absurd hh (Nat.ne_of_lt hlt)
    · simpa [applyOp, onEvent_next] using Nat.lt_succ_of_lt hlt
  | opOnce e h =>
    refine ⟨by simp [applyOp], ?_, ?_⟩
    · intro hmem
      rcases mem_allIds_onEvent j e _ t hmem with hh | hh
      · exact hna hh
      · exact absurd hh (Nat.ne_of_lt hlt)
    · simpa [applyOp, once, onEvent_next] using Nat.lt_succ_of_lt hlt
  | opSubscribe entries =>
    refine ⟨by simp [applyOp], ?_, ?_⟩
    · intro hmem
      rcases mem_allIds_subscribe entries t j hmem with hh | hh
      · exact hna hh
      · exact absurd hlt (not_lt_of_le hh)
    · exact lt_of_lt_of_le hlt (subscribe_next_mono entries t)
  | opCancel i =>
    refine ⟨by simp [applyOp], ?_, ?_⟩
    · exact fun hmem => hna (mem_allIds_cancel j i t hmem)
    · simpa [applyOp, cancel_next] using hlt
  | opEmit e args =>
    obtain ⟨h1, h2, h3⟩ := emit_absent e args t j hna hlt
    exact ⟨h1, h2, h3⟩

theorem applyOps_absent (ops : List (Op α)) (t : EmitterState) (j : SubId)
    (hna : j ∉ allIds t) (hlt : j < t.nextSubscriptionIdNumber) :
    j ∉ (applyOps ops t).2.1 ∧ j ∉ allIds (applyOps ops t).1 ∧
      j < (applyOps ops t).1.nextSubscriptionIdNumber := by
  induction ops generalizing t with
  | nil => exact ⟨by simp [applyOps], hna, hlt⟩
  | cons op rest ih =>
    obtain ⟨h1, h2, h3⟩ := applyOp_absent op t j hna hlt
    obtain ⟨h4, h5, h6⟩ := ih (applyOp op t).1 h2 h3
    refine ⟨?_, h5, h6⟩
    simp only [applyOps, List.mem_append]
    rintro (hh | hh)
    · exact h1 hh
    · exact h4 hh

theorem subsOf_onEvent_self_append (e : String) (h : Handler) (s : EmitterState) (hwf : WF s) :
    subsOf e (onEvent e h s).2 = subsOf e s ++ [(s.nextSubscriptionIdNumber, h)] := by
  rw [subsOf_onEvent_self]
  exact setId_absent _ _ _ (lookupId_next_subsOf e s hwf)

theorem benignE_onEvent (e : String) (h : Handler) (s : EmitterState) (hwf : WF s)
    (hb : benignE e s = true) (hbh : benignH h = true) :
    benignE e (onEvent e h s).2 = true := by
  rw [benignE, subsOf_onEvent_self_append e h s hwf, List.all_append]
  have hb' : (subsOf e s).all (fun p => benignH p.2) = true := hb
  simp [hb', hbh]

theorem subscribe_ids_length (entries : List (String × Option HandlerMapEntry))
    (s : EmitterState) :
    (subscribe entries s).1.length = (entries.filter (fun p => p.2.isSome)).length := by
  induction entries generalizing s with
  | nil => rfl
  | cons p rest ih =>
    obtain ⟨e, entry⟩ := p
    cases entry with
    | none => simpa [subscribe, List.filter_cons] using ih s
    | some en =>
      cases en with
      | plainFn hb =>
        simp [subscribe, HandlerMapEntry.isOnce, HandlerMapEntry.body, Bool.false_eq_true,
          List.filter_cons, ih]
      | marked hb =>
        simp [subscribe, HandlerMapEntry.isOnce, HandlerMapEntry.body, List.filter_cons, ih]

/-- C7: for every event name with zero currently-registered subscriptions,
`emit` does not throw and has no observable effect: it returns the registry
state unchanged, with an empty log, no invocations, and no exception. -/
theorem C7_emit_no_subscribers {α : Type} (e : String) (args : α) (s : EmitterState)
    (h : subsOf e s = []) : emit e args s = ⟨s, [], [], false⟩ := by
  cases hev : lookupEv e s.handlers with
  | none => simp [emit, hev]
  | some m =>
    have hm : m = [] := by rw [subsOf, hev] at h; exact h
    subst hm
    simp [emit, hev, emitLoop]

theorem C7_witness :
    subsOf "nope" wOne = [] ∧ emit "nope" (7 : Nat) wOne = ⟨wOne, [], [], false⟩ :=
  ⟨rfl, C7_emit_no_subscribers "nope" 7 wOne rfl⟩

/-- C9: the predicate `isOnceEventHandler` classifies exactly: it is false on
every plain handler function, whatever own properties the function carries
(including an own property named `type`), because `typeof` of a function is
`"function"`, not `"object"`; and it is true on every marker object produced
by `once` of once.ts. -/
theorem C9_isOnceEventHandler_exact :
    (∀ props : List (String × JSVal), isOnceEventHandler (JSVal.vfunc props) = false) ∧
      (∀ h : JSVal, isOnceEventHandler (onceMarker h) = true) :=
  ⟨fun _ => rfl, fun _ => rfl⟩

/-- C10: the cancel handle returned by `on` removes at most the one
subscription record it governs: the governed id is absent afterwards from
the event map, and every other subscription id, under every event name,
still maps to its unchanged handler, even though `cancel` iterates over the
inner maps of all event names. -/
theorem C10_cancel_frame (s : EmitterState) (j : SubId) (e : String) (k : SubId) :
    lookupSub e j (cancel j s) = none ∧
      (k ≠ j → lookupSub e k (cancel j s) = lookupSub e k s) :=
  ⟨lookupSub_cancel_self e j s, fun hk => lookupSub_cancel_ne e k j s hk⟩

theorem C10_witness :
    ((1 : SubId) ≠ 0) ∧
      (lookupSub "a" 0 (cancel 0 wTwo) = none ∧
        ((1 : SubId) ≠ 0 → lookupSub "a" 1 (cancel 0 wTwo) = lookupSub "a" 1 wTwo)) :=
  ⟨by decide, C10_cancel_frame wTwo 0 "a" 1⟩

/-- C8: for a batch subscription over a handler map, one cancel handle (id)
is collected per present non-nullish entry; invoking the batch canceller
removes every collected subscription from any registry state (in particular
also after some of them already self-cancelled via once: those are silently
skipped while the rest are still cancelled); invoking it a second time is a
no-op; and it touches no subscription outside the collected ids. -/
theorem C8_subscribe_batch_cancel (entries : List (String × Option HandlerMapEntry))
    (s : EmitterState) :
    (subscribe entries s).1.length = (entries.filter (fun p => p.2.isSome)).length ∧
    (∀ t : EmitterState, ∀ j ∈ (subscribe entries s).1,
      j ∉ allIds (batchCancel (subscribe entries s).1 t)) ∧
    (∀ t : EmitterState,
      batchCancel (subscribe entries s).1 (batchCancel (subscribe entries s).1 t) =
        batchCancel (subscribe entries s).1 t) ∧
    (∀ t : EmitterState, ∀ e : String, ∀ k : SubId, k ∉ (subscribe entries s).1 →
      lookupSub e k (batchCancel (subscribe entries s).1 t) = lookupSub e k t) :=
  ⟨subscribe_ids_length entries s,
   fun t j hj => batchCancel_removes _ t j hj,
   fun t => batchCancel_idem _ t,
   fun t e k hk => batchCancel_frame _ t e k hk⟩

theorem C8_witness :
    (0 ∈ (subscribe wEntries initState).1) ∧ (5 ∉ (subscribe wEntries initState).1) ∧
    0 ∉ allIds (batchCancel (subscribe wEntries initState).1 (subscribe wEntries initState).2) ∧
    lookupSub "a" 5
        (batchCancel (subscribe wEntries initState).1 (subscribe wEntries initState).2) =
      lookupSub "a" 5 (subscribe wEntries initState).2 :=
  ⟨by decide, by decide,
   (C8_subscribe_batch_cancel wEntries initState).2.1
     (subscribe wEntries initState).2 0 (by decide),
   (C8_subscribe_batch_cancel wEntries initState).2.2.2
     (subscribe wEntries initState).2 "a" 5 (by decide)⟩

/-- C1: during one dispatch of event `e`, only subscriptions whose id was
allocated before the dispatch began are invoked — so a subscription created
by a handler during that same pass (its id is at least the counter value at
dispatch start) is never invoked in that pass; and on the next dispatch of
`e` (when the handlers then registered for `e` neither cancel nor throw),
every subscription created during the first pass and still registered is
invoked. -/
theorem C1_created_during_dispatch {α : Type} (s : EmitterState) (e : String) (args args2 : α)
    (hwf : WF s) :
    (∀ i ∈ (emit e args s).invoked, i < s.nextSubscriptionIdNumber) ∧
    (benignE e (emit e args s).state = true →
      ∀ i ∈ (subsOf e (emit e args s).state).map (·.1),
        s.nextSubscriptionIdNumber ≤ i → i ∈ (emit e args2 (emit e args s).state).invoked) := by
  constructor
  · intro i hi
    exact hwf.1 i (emit_invoked_subset_allIds e args s i hi)
  · intro hb i hi _
    obtain ⟨h1, _, _, _⟩ := emit_benign e args2 (emit e args s).state (WF_emit e args s hwf) hb
    rw [h1]
    exact hi

theorem C1_witness :
    WF wNew ∧ benignE "e" (emit "e" (0 : Nat) wNew).state = true ∧
    (1 ∈ (subsOf "e" (emit "e" (0 : Nat) wNew).state).map (·.1)) ∧
    wNew.nextSubscriptionIdNumber ≤ 1 ∧
    (1 ∈ (emit "e" (1 : Nat) (emit "e" (0 : Nat) wNew).state).invoked) :=
  ⟨by decide, by decide, by decide, by decide,
   (C1_created_during_dispatch wNew "e" 0 1 (by decide)).2 (by decide) 1 (by decide) (by decide)⟩

/-- C3: a handler registered for event `e` and still registered when the
dispatch begins is invoked exactly once by that dispatch, and the dispatch
log is exactly the handlers' recorded invocations each paired with exactly
the argument tuple passed to `emit`, unmodified (stated when the handlers
registered for `e` neither cancel nor throw, i.e. the subscription is not
cancelled during the pass). -/
theorem C3_on_invokes_exactly_once {α : Type} (e : String) (args : α) (s : EmitterState)
    (j : SubId) (h : Handler) (hwf : WF s) (hb : benignE e s = true)
    (hl : lookupSub e j s = some h) :
    (emit e args s).invoked.count j = 1 ∧
    (emit e args s).threw = false ∧
    (emit e args s).log = pairLogs (subsOf e s) args := by
  obtain ⟨h1, h2, h3, _⟩ := emit_benign e args s hwf hb
  refine ⟨?_, h2, h3⟩
  rw [h1]
  exact List.count_eq_one_of_mem (subsOf_keys_nodup e s hwf) (mem_keys_of_lookupId j _ h hl)

theorem C3_witness :
    WF wOne ∧ benignE "e" wOne = true ∧ lookupSub "e" 0 wOne = some [HAct.record 5] ∧
    ((emit "e" (3 : Nat) wOne).invoked.count 0 = 1 ∧
     (emit "e" (3 : Nat) wOne).threw = false ∧
     (emit "e" (3 : Nat) wOne).log = pairLogs (subsOf "e" wOne) 3) :=
  ⟨by decide, by decide, rfl,
   C3_on_invokes_exactly_once "e" 3 wOne 0 [HAct.record 5] (by decide) (by decide) rfl⟩

/-- C4: subscribing h1, then h2, then h3 to the same event and dispatching
once invokes the subscriptions in registration order: first the previously
registered ones in their registration order, then h1, h2, h3 in this order
(their ids are the three consecutive counter values). -/
theorem C4_registration_order {α : Type} (e : String) (args : α) (s : EmitterState)
    (h1 h2 h3 : Handler) (hwf : WF s) (hb : benignE e s = true)
    (hb1 : benignH h1 = true) (hb2 : benignH h2 = true) (hb3 : benignH h3 = true) :
    (emit e args (onEvent e h3 (onEvent e h2 (onEvent e h1 s).2).2).2).invoked =
      (subsOf e s).map (·.1) ++
        [s.nextSubscriptionIdNumber, s.nextSubscriptionIdNumber + 1,
          s.nextSubscriptionIdNumber + 2] := by
  have hwf1 := WF_onEvent e h1 s hwf
  have hwf2 := WF_onEvent e h2 _ hwf1
  have hwf3 := WF_onEvent e h3 _ hwf2
  have ha1 := subsOf_onEvent_self_append e h1 s hwf
  have ha2 := subsOf_onEvent_self_append e h2 _ hwf1
  have ha3 := subsOf_onEvent_self_append e h3 _ hwf2
  have hbe1 := benignE_onEvent e h1 s hwf hb hb1
  have hbe2 := benignE_onEvent e h2 _ hwf1 hbe1 hb2
  have hbe3 := benignE_onEvent e h3 _ hwf2 hbe2 hb3
  obtain ⟨hi, _, _, _⟩ := emit_benign e args _ hwf3 hbe3
  rw [hi, ha3, ha2, ha1]
  simp [onEvent_next, List.map_append]

theorem C4_witness :
    WF initState ∧ benignE "e" initState = true ∧
    benignH [HAct.record 1] = true ∧ benignH [HAct.record 2] = true ∧
    benignH [HAct.record 3] = true ∧
    (emit "e" (0 : Nat)
        (onEvent "e" [HAct.record 3]
          (onEvent "e" [HAct.record 2]
            (onEvent "e" [HAct.record 1] initState).2).2).2).invoked =
      (subsOf "e" initState).map (·.1) ++
        [initState.nextSubscriptionIdNumber, initState.nextSubscriptionIdNumber + 1,
          initState.nextSubscriptionIdNumber + 2] :=
  ⟨by decide, by decide, by decide, by decide, by decide,
   C4_registration_order "e" 0 initState [HAct.record 1] [HAct.record 2] [HAct.record 3]
     (by decide) (by decide) (by decide) (by decide) (by decide)⟩

theorem lookupId_append_left (i : SubId) (xs ys : List (SubId × Handler))
    (hmem : i ∈ xs.map (·.1)) : lookupId i (xs ++ ys) = lookupId i xs := by
  induction xs with
  | nil => simp at hmem
  | cons p rest ih =>
    obtain ⟨k, v⟩ := p
    by_cases hk : k = i
    · simp [lookupId, hk]
    · rw [List.map_cons, List.mem_cons] at hmem
      rcases hmem with hh | hh
      · exact absurd hh.symm hk
      · simp [lookupId, hk, ih hh]

theorem lookupId_append_right (i : SubId) (xs ys : List (SubId × Handler))
    (hmem : i ∉ xs.map (·.1)) : lookupId i (xs ++ ys) = lookupId i ys := by
  induction xs with
  | nil => rfl
  | cons p rest ih =>
    obtain ⟨k, v⟩ := p
    rw [List.map_cons, List.mem_cons] at hmem
    push_neg at hmem
    simp [lookupId, Ne.symm hmem.1, ih hmem.2]

theorem emitLoop_append (e : String) (args : α) (xs ys : List SubId) (t : EmitterState) :
    emitLoop e args (xs ++ ys) t =
      if (emitLoop e args xs t).threw then emitLoop e args xs t
      else
        ⟨(emitLoop e args ys (emitLoop e args xs t).state).state,
          (emitLoop e args xs t).log ++ (emitLoop e args ys (emitLoop e args xs t).state).log,
          (emitLoop e args xs t).invoked ++
            (emitLoop e args ys (emitLoop e args xs t).state).invoked,
          (emitLoop e args ys (emitLoop e args xs t).state).threw⟩ := by
  induction xs generalizing t with
  | nil => rfl
  | cons i xs ih =>
    rw [List.cons_append]
    cases hl : lookupId i (subsOf e t) with
    | none =>
      simp only [emitLoop, hl]
      exact ih t
    | some h =>
      simp only [emitLoop, hl]
      by_cases ht : (runActs args h t).2.2 = true
      · simp [ht]
      · simp only [ht, Bool.false_eq_true, if_false]
        rw [ih (runActs args h t).1]
        by_cases ht2 : (emitLoop e args xs (runActs args h t).1).threw = true
        · simp [ht2]
        · simp [ht2, List.append_assoc]

theorem tameAct_no_throw (args : α) (s : EmitterState) (j : SubId) (a : HAct)
    (ht : tameAct j a = true) : (runAct args s a).2.2 = false := by
  cases a <;> simp_all [tameAct, runAct]

theorem tameAct_cancel_eq (j : SubId) (a : HAct) (ht : tameAct j a = true) :
    ∀ k, a = HAct.cancelHandle k → k = j := by
  intro k hk
  subst hk
  simpa [tameAct] using ht

theorem runActs_tame_threw (args : α) (j : SubId) (h : Handler) (s : EmitterState)
    (ht : tameH j h = true) : (runActs args h s).2.2 = false := by
  induction h generalizing s with
  | nil => rfl
  | cons a rest ih =>
    rw [tameH, List.all_cons, Bool.and_eq_true] at ht
    simp only [runActs]
    rw [tameAct_no_throw args s j a ht.1]
    simpa using ih _ ht.2

theorem runActs_tame_frame (args : α) (j : SubId) (h : Handler) (s : EmitterState)
    (e : String) (k : SubId) (ht : tameH j h = true) (hk : k < s.nextSubscriptionIdNumber)
    (hkj : k ≠ j) : lookupSub e k (runActs args h s).1 = lookupSub e k s := by
  induction h generalizing s with
  | nil => rfl
  | cons a rest ih =>
    rw [tameH, List.all_cons, Bool.and_eq_true] at ht
    simp only [runActs]
    rw [tameAct_no_throw args s j a ht.1]
    simp only [Bool.false_eq_true, if_false]
    rw [ih _ ht.2 (lt_of_lt_of_le hk (runAct_next_mono args s a))]
    exact runAct_frame_ne args s a e k j hk hkj (tameAct_cancel_eq j a ht.1)

theorem runActs_cancelHead_absent (args : α) (h : Handler) (s : EmitterState) (j : SubId)
    (hjlt : j < s.nextSubscriptionIdNumber) :
    j ∉ allIds (runActs args (HAct.cancelHandle j :: h) s).1 := by
  simp only [runActs, runAct]
  exact runActs_absent args h (cancel j s) j (not_mem_allIds_cancel_self j s)
    (by rw [cancel_next]; exact hjlt)

theorem runActs_tame_removes (args : α) (j : SubId) (h : Handler) (s : EmitterState)
    (ht : tameH j h = true) (hmem : HAct.cancelHandle j ∈ h)
    (hjlt : j < s.nextSubscriptionIdNumber) :
    j ∉ allIds (runActs args h s).1 := by
  induction h generalizing s with
  | nil => simp at hmem
  | cons a rest ih =>
    rw [tameH, List.all_cons, Bool.and_eq_true] at ht
    simp only [runActs]
    rw [tameAct_no_throw args s j a ht.1]
    simp only [Bool.false_eq_true, if_false]
    rcases List.mem_cons.mp hmem with hh | hh
    · subst hh
      exact runActs_absent args rest (runAct args s (HAct.cancelHandle j)).1 j
        (not_mem_allIds_cancel_self j s) (by simpa [runAct, cancel_next] using hjlt)
    · exact ih _ ht.2 hh (lt_of_lt_of_le hjlt (runAct_next_mono args s a))

theorem emitLoop_tame (e : String) (args : α) (j : SubId) (snap : List SubId)
    (t : EmitterState) (hwf : WF t) (hnj : ∀ k ∈ snap, k ≠ j)
    (hp : ∀ k ∈ snap, ∃ h, lookupSub e k t = some h ∧ tameH j h = true) :
    (emitLoop e args snap t).invoked = snap ∧
    (emitLoop e args snap t).threw = false ∧
    (∀ e' k, k < t.nextSubscriptionIdNumber → k ≠ j →
      lookupSub e' k (emitLoop e args snap t).state = lookupSub e' k t) ∧
    (j ∉ allIds t → j < t.nextSubscriptionIdNumber →
      j ∉ allIds (emitLoop e args snap t).state) := by
  induction snap generalizing t with
  | nil => exact ⟨rfl, rfl, fun _ _ _ _ => rfl, fun h _ => h⟩
  | cons i rest ih =>
    obtain ⟨h, hl, hth⟩ := hp i (List.mem_cons_self _ _)
    have hij : i ≠ j := hnj i (List.mem_cons_self _ _)
    have hi_lt : i < t.nextSubscriptionIdNumber := lt_next_of_lookupSub e i t h hwf hl
    have hthrew : (runActs args h t).2.2 = false := runActs_tame_threw args j h t hth
    have hwf1 : WF (runActs args h t).1 := WF_runActs args h t hwf
    have hmono := runActs_next_mono args h t
    have hframe : ∀ e' k, k < t.nextSubscriptionIdNumber → k ≠ j →
        lookupSub e' k (runActs args h t).1 = lookupSub e' k t :=
      fun e' k hk hkj => runActs_tame_frame args j h t e' k hth hk hkj
    have hp1 : ∀ k ∈ rest, ∃ h', lookupSub e k (runActs args h t).1 = some h' ∧
        tameH j h' = true := by
      intro k hk
      obtain ⟨h', hl', hth'⟩ := hp k (List.mem_cons_of_mem _ hk)
      exact ⟨h', by
        rw [hframe e k (lt_next_of_lookupSub e k t h' hwf hl') (hnj k (List.mem_cons_of_mem _ hk))]
        exact hl', hth'⟩
    obtain ⟨ih1, ih2, ih3, ih4⟩ :=
      ih (runActs args h t).1 hwf1 (fun k hk => hnj k (List.mem_cons_of_mem _ hk)) hp1
    have hlid : lookupId i (subsOf e t) = some h := hl
    simp only [emitLoop, hlid, hthrew, Bool.false_eq_true, if_false]
    refine ⟨by rw [ih1], by rw [ih2], ?_, ?_⟩
    · intro e' k hk hkj
      rw [ih3 e' k (lt_of_lt_of_le hk hmono) hkj]
      exact hframe e' k hk hkj
    · intro habs hjlt
      exact ih4 (runActs_absent args h t j habs hjlt) (lt_of_lt_of_le hjlt hmono)

theorem emitLoop_tame_absent (e : String) (args : α) (j : SubId) (snap : List SubId)
    (t : EmitterState) (hwf : WF t) (habs : j ∉ allIds t)
    (hjlt : j < t.nextSubscriptionIdNumber)
    (hp : ∀ k ∈ snap, k ≠ j → ∃ h, lookupSub e k t = some h ∧ tameH j h = true) :
    (emitLoop e args snap t).invoked = snap.filter (fun k => decide (k ≠ j)) ∧
    (emitLoop e args snap t).threw = false ∧
    (∀ e' k, k < t.nextSubscriptionIdNumber → k ≠ j →
      lookupSub e' k (emitLoop e args snap t).state = lookupSub e' k t) ∧
    j ∉ allIds (emitLoop e args snap t).state := by
  induction snap generalizing t with
  | nil => exact ⟨rfl, rfl, fun _ _ _ _ => rfl, habs⟩
  | cons i rest ih =>
    by_cases hij : i = j
    · subst hij
      have hl : lookupId i (subsOf e t) = none := lookupSub_eq_none_of_not_mem e i t habs
      simp only [emitLoop, hl]
      obtain ⟨ih1, ih2, ih3, ih4⟩ := ih t hwf habs hjlt
        (fun k hk hkj => hp k (List.mem_cons_of_mem _ hk) hkj)
      refine ⟨?_, ih2, ih3, ih4⟩
      rw [ih1]
      simp
    · obtain ⟨h, hl, hth⟩ := hp i (List.mem_cons_self _ _) hij
      have hi_lt : i < t.nextSubscriptionIdNumber := lt_next_of_lookupSub e i t h hwf hl
      have hthrew : (runActs args h t).2.2 = false := runActs_tame_threw args j h t hth
      have hwf1 : WF (runActs args h t).1 := WF_runActs args h t hwf
      have hmono := runActs_next_mono args h t
      have hframe : ∀ e' k, k < t.nextSubscriptionIdNumber → k ≠ j →
          lookupSub e' k (runActs args h t).1 = lookupSub e' k t :=
        fun e' k hk hkj => runActs_tame_frame args j h t e' k hth hk hkj
      have habs1 : j ∉ allIds (runActs args h t).1 := runActs_absent args h t j habs hjlt
      have hjlt1 : j < (runActs args h t).1.nextSubscriptionIdNumber :=
        lt_of_lt_of_le hjlt hmono
      have hp1 : ∀ k ∈ rest, k ≠ j → ∃ h', lookupSub e k (runActs args h t).1 = some h' ∧
          tameH j h' = true := by
        intro k hk hkj
        obtain ⟨h', hl', hth'⟩ := hp k (List.mem_cons_of_mem _ hk) hkj
        exact ⟨h', by
          rw [hframe e k (lt_next_of_lookupSub e k t h' hwf hl') hkj]
          exact hl', hth'⟩
      obtain ⟨ih1, ih2, ih3, ih4⟩ := ih (runActs args h t).1 hwf1 habs1 hjlt1 hp1
      have hlid : lookupId i (subsOf e t) = some h := hl
      simp only [emitLoop, hlid, hthrew, Bool.false_eq_true, if_false]
      refine ⟨?_, by rw [ih2], ?_, ih4⟩
      · rw [ih1, List.filter_cons_of_pos (by simpa using hij)]
      · intro e' k hk hkj
        rw [ih3 e' k (lt_of_lt_of_le hk hmono) hkj]
        exact hframe e' k hk hkj

/-- C2: if, in the registered order for event `e`, the handler of
subscription `i` comes before subscription `j` and calls the cancel handle
of `j` when invoked (and no handler of `e` throws or cancels anything other
than `j`), then one dispatch of `e` skips `j`: `j` is not invoked in that
pass, it is removed from storage, it is not invoked by any sequence of
future operations, while the subscriptions before `i` — already invoked
when the cancellation happens — and every other sibling are all invoked in
that pass, and every subscription other than `j` stays registered with its
handler unchanged. -/
theorem C2_cancel_before_turn {α : Type} (e : String) (args : α) (s : EmitterState)
    (l₁ l₂ : List (SubId × Handler)) (i j : SubId) (hi : Handler)
    (hwf : WF s)
    (hsplit : subsOf e s = l₁ ++ (i, hi) :: l₂)
    (hcancel : HAct.cancelHandle j ∈ hi)
    (hjmem : j ∈ l₂.map (·.1))
    (htame : ∀ p ∈ subsOf e s, tameH j p.2 = true) :
    j ∉ (emit e args s).invoked ∧
    (emit e args s).invoked =
      l₁.map (·.1) ++ i :: (l₂.map (·.1)).filter (fun k => decide (k ≠ j)) ∧
    j ∉ allIds (emit e args s).state ∧
    (∀ ops : List (Op α), j ∉ (applyOps ops (emit e args s).state).2.1) ∧
    (∀ e' k, k < s.nextSubscriptionIdNumber → k ≠ j →
      lookupSub e' k (emit e args s).state = lookupSub e' k s) := by
  cases hev : lookupEv e s.handlers with
  | none =>
    rw [subsOf, hev] at hsplit
    simp at hsplit
  | some m =>
  have hm : m = l₁ ++ (i, hi) :: l₂ := by
    have hx := hsplit
    rw [subsOf, hev] at hx
    exact hx
  subst hm
  have hnd : ((l₁ ++ (i, hi) :: l₂).map (·.1)).Nodup := by
    have hx := subsOf_keys_nodup e s hwf
    rw [hsplit] at hx
    exact hx
  rw [List.map_append, List.map_cons, List.nodup_append] at hnd
  obtain ⟨hnd1, hnd2, hdisj⟩ := hnd
  have hij : i ≠ j := by
    rw [List.nodup_cons] at hnd2
    intro hh
    exact hnd2.1 (hh ▸ hjmem)
  have hjl1 : j ∉ l₁.map (·.1) := fun hh => hdisj hh (List.mem_cons_of_mem _ hjmem)
  have hil1 : i ∉ l₁.map (·.1) := fun hh => hdisj hh (List.mem_cons_self _ _)
  have hbound : ∀ k ∈ (subsOf e s).map (·.1), k < s.nextSubscriptionIdNumber :=
    fun k hk => hwf.1 k (subsOf_keys_subset_allIds e s k hk)
  have hjsub : j ∈ (subsOf e s).map (·.1) := by
    rw [hsplit, List.map_append, List.map_cons]
    exact List.mem_append_right _ (List.mem_cons_of_mem _ hjmem)
  have hisub : i ∈ (subsOf e s).map (·.1) := by
    rw [hsplit, List.map_append, List.map_cons]
    exact List.mem_append_right _ (List.mem_cons_self _ _)
  have hjlt : j < s.nextSubscriptionIdNumber := hbound j hjsub
  have hilt : i < s.nextSubscriptionIdNumber := hbound i hisub
  have haveP : ∀ k ∈ (subsOf e s).map (·.1),
      ∃ h', lookupSub e k s = some h' ∧ tameH j h' = true := by
    intro k hk
    obtain ⟨h', hl'⟩ := lookupId_isSome_of_mem_keys k _ hk
    exact ⟨h', hl', htame _ (lookupId_some_mem_pair k _ h' hl')⟩
  have hpA : ∀ k ∈ l₁.map (·.1), ∃ h', lookupSub e k s = some h' ∧ tameH j h' = true := by
    intro k hk
    refine haveP k ?_
    rw [hsplit, List.map_append]
    exact List.mem_append_left _ hk
  have hnjA : ∀ k ∈ l₁.map (·.1), k ≠ j := fun k hk hkj => hjl1 (hkj ▸ hk)
  obtain ⟨hA1, hA2, hA3, _⟩ := emitLoop_tame e args j (l₁.map (·.1)) s hwf hnjA hpA
  have hwfA : WF (emitLoop e args (l₁.map (·.1)) s).state :=
    WF_emitLoop e args (l₁.map (·.1)) s hwf
  have hmonoA := emitLoop_next_mono e args (l₁.map (·.1)) s
  have hlidS : lookupId i (subsOf e s) = some hi := by
    rw [hsplit, lookupId_append_right i l₁ _ hil1]
    simp [lookupId]
  have hlidA : lookupId i (subsOf e (emitLoop e args (l₁.map (·.1)) s).state) = some hi := by
    have hx := hA3 e i hilt hij
    rw [lookupSub, lookupSub] at hx
    rw [hx]
    exact hlidS
  have htamei : tameH j hi = true := by
    refine htame (i, hi) ?_
    rw [hsplit]
    exact List.mem_append_right _ (List.mem_cons_self _ _)
  have hthrewB :
      (runActs args hi (emitLoop e args (l₁.map (·.1)) s).state).2.2 = false :=
    runActs_tame_threw args j hi _ htamei
  have hwfB : WF (runActs args hi (emitLoop e args (l₁.map (·.1)) s).state).1 :=
    WF_runActs args hi _ hwfA
  have hmonoB := runActs_next_mono args hi (emitLoop e args (l₁.map (·.1)) s).state
  have habsB : j ∉ allIds (runActs args hi (emitLoop e args (l₁.map (·.1)) s).state).1 :=
    runActs_tame_removes args j hi _ htamei hcancel (lt_of_lt_of_le hjlt hmonoA)
  have hframeB : ∀ e' k,
      k < (emitLoop e args (l₁.map (·.1)) s).state.nextSubscriptionIdNumber → k ≠ j →
      lookupSub e' k (runActs args hi (emitLoop e args (l₁.map (·.1)) s).state).1 =
        lookupSub e' k (emitLoop e args (l₁.map (·.1)) s).state :=
    fun e' k hk hkj => runActs_tame_frame args j hi _ e' k htamei hk hkj
  have hpC : ∀ k ∈ l₂.map (·.1), k ≠ j →
      ∃ h', lookupSub e k (runActs args hi (emitLoop e args (l₁.map (·.1)) s).state).1 =
        some h' ∧ tameH j h' = true := by
    intro k hk hkj
    have hksub : k ∈ (subsOf e s).map (·.1) := by
      rw [hsplit, List.map_append, List.map_cons]
      exact List.mem_append_right _ (List.mem_cons_of_mem _ hk)
    obtain ⟨h', hl', hth'⟩ := haveP k hksub
    have hklt : k < s.nextSubscriptionIdNumber := hbound k hksub
    refine ⟨h', ?_, hth'⟩
    rw [hframeB e k (lt_of_lt_of_le hklt hmonoA) hkj, hA3 e k hklt hkj]
    exact hl'
  obtain ⟨hC1, hC2, hC3, hC4⟩ := emitLoop_tame_absent e args j (l₂.map (·.1)) _ hwfB habsB
    (lt_of_lt_of_le hjlt (le_trans hmonoA hmonoB)) hpC
  have hmonoC := emitLoop_next_mono e args (l₂.map (·.1))
    (runActs args hi (emitLoop e args (l₁.map (·.1)) s).state).1
  have hemit : emit e args s =
      emitLoop e args (l₁.map (·.1) ++ i :: l₂.map (·.1)) s := by
    simp only [emit, hev]
    rw [List.map_append, List.map_cons]
  have hstep : emitLoop e args (i :: l₂.map (·.1))
        (emitLoop e args (l₁.map (·.1)) s).state =
      ⟨(emitLoop e args (l₂.map (·.1))
          (runActs args hi (emitLoop e args (l₁.map (·.1)) s).state).1).state,
        (runActs args hi (emitLoop e args (l₁.map (·.1)) s).state).2.1 ++
          (emitLoop e args (l₂.map (·.1))
            (runActs args hi (emitLoop e args (l₁.map (·.1)) s).state).1).log,
        i :: (emitLoop e args (l₂.map (·.1))
          (runActs args hi (emitLoop e args (l₁.map (·.1)) s).state).1).invoked,
        (emitLoop e args (l₂.map (·.1))
          (runActs args hi (emitLoop e args (l₁.map (·.1)) s).state).1).threw⟩ := by
    simp only [emitLoop, hlidA, hthrewB, Bool.false_eq_true, if_false]
  have hwhole : emit e args s =
      ⟨(emitLoop e args (l₂.map (·.1))
          (runActs args hi (emitLoop e args (l₁.map (·.1)) s).state).1).state,
        (emitLoop e args (l₁.map (·.1)) s).log ++
          ((runActs args hi (emitLoop e args (l₁.map (·.1)) s).state).2.1 ++
            (emitLoop e args (l₂.map (·.1))
              (runActs args hi (emitLoop e args (l₁.map (·.1)) s).state).1).log),
        (emitLoop e args (l₁.map (·.1)) s).invoked ++
          i :: (emitLoop e args (l₂.map (·.1))
            (runActs args hi (emitLoop e args (l₁.map (·.1)) s).state).1).invoked,
        (emitLoop e args (l₂.map (·.1))
          (runActs args hi (emitLoop e args (l₁.map (·.1)) s).state).1).threw⟩ := by
    rw [hemit, emitLoop_append, if_neg (by rw [hA2]; exact Bool.false_ne_true), hstep]
  have hInv : (emit e args s).invoked =
      l₁.map (·.1) ++ i :: (l₂.map (·.1)).filter (fun k => decide (k ≠ j)) := by
    rw [hwhole]
    show (emitLoop e args (l₁.map (·.1)) s).invoked ++
        i :: (emitLoop e args (l₂.map (·.1))
          (runActs args hi (emitLoop e args (l₁.map (·.1)) s).state).1).invoked =
      l₁.map (·.1) ++ i :: (l₂.map (·.1)).filter (fun k => decide (k ≠ j))
    rw [hA1, hC1]
  have hState : (emit e args s).state =
      (emitLoop e args (l₂.map (·.1))
        (runActs args hi (emitLoop e args (l₁.map (·.1)) s).state).1).state := by
    rw [hwhole]
  have hjfin : j < (emit e args s).state.nextSubscriptionIdNumber := by
    rw [hState]
    exact lt_of_lt_of_le hjlt (le_trans hmonoA (le_trans hmonoB hmonoC))
  refine ⟨?_, hInv, ?_, ?_, ?_⟩
  · rw [hInv]
    intro hmem
    rcases List.mem_append.mp hmem with hh | hh
    · exact hjl1 hh
    · rcases List.mem_cons.mp hh with hh2 | hh2
      · exact hij hh2.symm
      · have hx := (List.mem_filter.mp hh2).2
        simp at hx
  · rw [hState]
    exact hC4
  · intro ops
    have habs : j ∉ allIds (emit e args s).state := by
      rw [hState]
      exact hC4
    exact (applyOps_absent ops (emit e args s).state j habs hjfin).1
  · intro e' k hk hkj
    rw [hState, hC3 e' k (lt_of_lt_of_le hk (le_trans hmonoA hmonoB)) hkj,
      hframeB e' k (lt_of_lt_of_le hk hmonoA) hkj, hA3 e' k hk hkj]

theorem C2_witness :
    WF wCancelSib ∧
    subsOf "e" wCancelSib =
      [((0 : SubId), ([HAct.record 0] : Handler))] ++
        (1, [HAct.record 10, HAct.cancelHandle 2]) :: [(2, [HAct.record 20])] ∧
    HAct.cancelHandle 2 ∈ ([HAct.record 10, HAct.cancelHandle 2] : Handler) ∧
    (2 : SubId) ∈ ([((2 : SubId), ([HAct.record 20] : Handler))].map (·.1)) ∧
    (∀ p ∈ subsOf "e" wCancelSib, tameH 2 p.2 = true) ∧
    (2 : SubId) ∉ (emit "e" (0 : Nat) wCancelSib).invoked ∧
    (2 : SubId) ∉ allIds (emit "e" (0 : Nat) wCancelSib).state :=
  ⟨by decide, rfl, List.mem_cons_of_mem _ (List.mem_cons_self _ _), by decide, by decide,
   (C2_cancel_before_turn "e" 0 wCancelSib
      [((0 : SubId), [HAct.record 0])] [(2, [HAct.record 20])] 1 2
      [HAct.record 10, HAct.cancelHandle 2]
      (by decide) rfl (List.mem_cons_of_mem _ (List.mem_cons_self _ _)) (by decide)
      (by decide)).1,
   (C2_cancel_before_turn "e" 0 wCancelSib
      [((0 : SubId), [HAct.record 0])] [(2, [HAct.record 20])] 1 2
      [HAct.record 10, HAct.cancelHandle 2]
      (by decide) rfl (List.mem_cons_of_mem _ (List.mem_cons_self _ _)) (by decide)
      (by decide)).2.2.1⟩

/-- C5: the wrapper installed by `once` cancels its own subscription before
invoking the real handler.  Hence, when the handlers already registered for
`e` are benign, the first dispatch of `e` after `once(e, h)` invokes the
once-subscription exactly once, the subscription is removed from storage
even if `h` throws during that first call (the conclusion holds for every
handler body `h`, including throwing ones), and no sequence of future
operations — without any explicit cancel — ever invokes that subscription
again (a handler that re-subscribes creates a distinct subscription id). -/
theorem C5_once_fires_at_most_once {α : Type} (e : String) (args : α) (s : EmitterState)
    (h : Handler) (hwf : WF s) (hb : benignE e s = true) :
    (emit e args (once e h s).2).invoked.count (once e h s).1 = 1 ∧
    (once e h s).1 ∉ allIds (emit e args (once e h s).2).state ∧
    (∀ ops : List (Op α),
      (once e h s).1 ∉ (applyOps ops (emit e args (once e h s).2).state).2.1) := by
  have hnomem : s.nextSubscriptionIdNumber ∉ (subsOf e s).map (·.1) :=
    (lookupId_eq_none_iff _ _).mp (lookupId_next_subsOf e s hwf)
  have hsub1 : subsOf e (once e h s).2 =
      subsOf e s ++ [(s.nextSubscriptionIdNumber, HAct.cancelHandle s.nextSubscriptionIdNumber :: h)] :=
    subsOf_onEvent_self_append e _ s hwf
  have hev1 : lookupEv e (once e h s).2.handlers =
      some (setId s.nextSubscriptionIdNumber
        (HAct.cancelHandle s.nextSubscriptionIdNumber :: h) (subsOf e s)) :=
    lookupEv_setEv_self e _ s.handlers
  have hset : setId s.nextSubscriptionIdNumber
      (HAct.cancelHandle s.nextSubscriptionIdNumber :: h) (subsOf e s) =
      subsOf e s ++ [(s.nextSubscriptionIdNumber, HAct.cancelHandle s.nextSubscriptionIdNumber :: h)] :=
    setId_absent _ _ _ (lookupId_next_subsOf e s hwf)
  have hwf1 : WF (once e h s).2 := WF_once e h s hwf
  have hemit : emit e args (once e h s).2 =
      emitLoop e args ((subsOf e s).map (·.1) ++ [s.nextSubscriptionIdNumber])
        (once e h s).2 := by
    simp only [emit, hev1, hset]
    rw [List.map_append]
    rfl
  have hpA : ∀ k ∈ (subsOf e s).map (·.1),
      ∃ h', lookupId k (subsOf e (once e h s).2) = some h' ∧ benignH h' = true := by
    intro k hk
    obtain ⟨h', hl'⟩ := lookupId_isSome_of_mem_keys k _ hk
    have hkn : k ≠ s.nextSubscriptionIdNumber := fun hh => hnomem (hh ▸ hk)
    refine ⟨h', ?_, benignE_lookup e s k h' hb hl'⟩
    have hx := lookupSub_onEvent e e k
      (HAct.cancelHandle s.nextSubscriptionIdNumber :: h) s hkn
    rw [lookupSub, lookupSub] at hx
    show lookupId k
      (subsOf e (onEvent e (HAct.cancelHandle s.nextSubscriptionIdNumber :: h) s).2) = some h'
    rw [hx]
    exact hl'
  obtain ⟨hA1, hA2, hA3, hA4⟩ :=
    emitLoop_benign e args ((subsOf e s).map (·.1)) (once e h s).2 hwf1 hpA
  have hwfA : WF (emitLoop e args ((subsOf e s).map (·.1)) (once e h s).2).state :=
    WF_emitLoop e args _ _ hwf1
  have hmonoA := emitLoop_next_mono e args ((subsOf e s).map (·.1)) (once e h s).2
  have hlt1 : s.nextSubscriptionIdNumber < (once e h s).2.nextSubscriptionIdNumber := by
    rw [once_next]
    exact Nat.lt_succ_self _
  have hlookupN : lookupId s.nextSubscriptionIdNumber
      (subsOf e (emitLoop e args ((subsOf e s).map (·.1)) (once e h s).2).state) =
      some (HAct.cancelHandle s.nextSubscriptionIdNumber :: h) := by
    have hx := hA4 e s.nextSubscriptionIdNumber hlt1
    rw [lookupSub, lookupSub] at hx
    rw [hx, hsub1, lookupId_append_right _ _ _ hnomem]
    simp [lookupId]
  have hstep : emitLoop e args [s.nextSubscriptionIdNumber]
        (emitLoop e args ((subsOf e s).map (·.1)) (once e h s).2).state =
      ⟨(runActs args (HAct.cancelHandle s.nextSubscriptionIdNumber :: h)
          (emitLoop e args ((subsOf e s).map (·.1)) (once e h s).2).state).1,
        (runActs args (HAct.cancelHandle s.nextSubscriptionIdNumber :: h)
          (emitLoop e args ((subsOf e s).map (·.1)) (once e h s).2).state).2.1,
        [s.nextSubscriptionIdNumber],
        (runActs args (HAct.cancelHandle s.nextSubscriptionIdNumber :: h)
          (emitLoop e args ((subsOf e s).map (·.1)) (once e h s).2).state).2.2⟩ := by
    by_cases ht : (runActs args (HAct.cancelHandle s.nextSubscriptionIdNumber :: h)
        (emitLoop e args ((subsOf e s).map (·.1)) (once e h s).2).state).2.2 = true
    · simp only [emitLoop, hlookupN, ht, if_true]
    · rw [Bool.not_eq_true] at ht
      simp only [emitLoop, hlookupN, ht, Bool.false_eq_true, if_false]
      simp [emitLoop]
  have hwhole : emit e args (once e h s).2 =
      ⟨(runActs args (HAct.cancelHandle s.nextSubscriptionIdNumber :: h)
          (emitLoop e args ((subsOf e s).map (·.1)) (once e h s).2).state).1,
        (emitLoop e args ((subsOf e s).map (·.1)) (once e h s).2).log ++
          (runActs args (HAct.cancelHandle s.nextSubscriptionIdNumber :: h)
            (emitLoop e args ((subsOf e s).map (·.1)) (once e h s).2).state).2.1,
        (emitLoop e args ((subsOf e s).map (·.1)) (once e h s).2).invoked ++
          [s.nextSubscriptionIdNumber],
        (runActs args (HAct.cancelHandle s.nextSubscriptionIdNumber :: h)
          (emitLoop e args ((subsOf e s).map (·.1)) (once e h s).2).state).2.2⟩ := by
    rw [hemit, emitLoop_append, if_neg (by rw [hA2]; exact Bool.false_ne_true), hstep]
  have habs : s.nextSubscriptionIdNumber ∉ allIds (emit e args (once e h s).2).state := by
    rw [hwhole]
    exact runActs_cancelHead_absent args h _ _ (lt_of_lt_of_le hlt1 hmonoA)
  have hltfin : s.nextSubscriptionIdNumber <
      (emit e args (once e h s).2).state.nextSubscriptionIdNumber := by
    rw [hwhole]
    exact lt_of_lt_of_le hlt1 (le_trans hmonoA (runActs_next_mono args _ _))
  refine ⟨?_, habs, fun ops => (applyOps_absent ops _ _ habs hltfin).1⟩
  have hinv : (emit e args (once e h s).2).invoked =
      (subsOf e s).map (·.1) ++ [s.nextSubscriptionIdNumber] := by
    rw [hwhole]
    show (emitLoop e args ((subsOf e s).map (·.1)) (once e h s).2).invoked ++
        [s.nextSubscriptionIdNumber] = _
    rw [hA1]
  rw [hinv, List.count_append]
  have hz : ((subsOf e s).map (·.1)).count s.nextSubscriptionIdNumber = 0 :=
    List.count_eq_zero.mpr hnomem
  show List.count s.nextSubscriptionIdNumber ((subsOf e s).map (·.1)) +
      List.count s.nextSubscriptionIdNumber [s.nextSubscriptionIdNumber] = 1
  rw [hz]
  simp

theorem C5_witness :
    WF initState ∧ benignE "e" initState = true ∧
    ((emit "e" (0 : Nat) (once "e" [HAct.record 7, HAct.throwErr] initState).2).invoked.count
        (once "e" [HAct.record 7, HAct.throwErr] initState).1 = 1 ∧
      (once "e" [HAct.record 7, HAct.throwErr] initState).1 ∉
        allIds (emit "e" (0 : Nat) (once "e" [HAct.record 7, HAct.throwErr] initState).2).state ∧
      (∀ ops : List (Op Nat),
        (once "e" [HAct.record 7, HAct.throwErr] initState).1 ∉
          (applyOps ops (emit "e" (0 : Nat)
            (once "e" [HAct.record 7, HAct.throwErr] initState).2).state).2.1)) :=
  ⟨by decide, by decide,
   C5_once_fires_at_most_once "e" 0 initState [HAct.record 7, HAct.throwErr]
     (by decide) (by decide)⟩

theorem delId_mem_subset (j : SubId) (m : List (SubId × Handler)) (q : SubId × Handler)
    (hq : q ∈ delId j m) : q ∈ m ∧ q.1 ≠ j := by
  induction m with
  | nil => simp [delId] at hq
  | cons p rest ih =>
    obtain ⟨k, v⟩ := p
    by_cases hk : k = j
    · simp only [delId, if_pos hk] at hq
      obtain ⟨h1, h2⟩ := ih hq
      exact ⟨List.mem_cons_of_mem _ h1, h2⟩
    · simp only [delId, if_neg hk] at hq
      rcases List.mem_cons.mp hq with hh | hh
      · exact ⟨hh ▸ List.mem_cons_self _ _, by rw [hh]; exact hk⟩
      · obtain ⟨h1, h2⟩ := ih hh
        exact ⟨List.mem_cons_of_mem _ h1, h2⟩

theorem setId_mem_pair (i : SubId) (h : Handler) (m : List (SubId × Handler))
    (q : SubId × Handler) (hq : q ∈ setId i h m) : q ∈ m ∨ q = (i, h) := by
  induction m with
  | nil => exact Or.inr (by simpa [setId] using hq)
  | cons p rest ih =>
    obtain ⟨k, v⟩ := p
    by_cases hk : k = i
    · simp only [setId, if_pos hk] at hq
      rcases List.mem_cons.mp hq with hh | hh
      · exact Or.inr hh
      · exact Or.inl (List.mem_cons_of_mem _ hh)
    · simp only [setId, if_neg hk] at hq
      rcases List.mem_cons.mp hq with hh | hh
      · exact Or.inl (hh ▸ List.mem_cons_self _ _)
      · rcases ih hh with h2 | h2
        · exact Or.inl (List.mem_cons_of_mem _ h2)
        · exact Or.inr h2

theorem mem_deepTagsEv (tag : Nat) (l : List (String × List (SubId × Handler)))
    (hmem : tag ∈ deepTagsEv l) : ∃ p ∈ l, tag ∈ deepTagsSubs p.2 := by
  induction l with
  | nil => simp [deepTagsEv] at hmem
  | cons p rest ih =>
    simp only [deepTagsEv, List.mem_append] at hmem
    rcases hmem with hh | hh
    · exact ⟨p, List.mem_cons_self _ _, hh⟩
    · obtain ⟨q, hq, hq2⟩ := ih hh
      exact ⟨q, List.mem_cons_of_mem _ hq, hq2⟩

theorem deepTagsEv_of_mem (tag : Nat) (l : List (String × List (SubId × Handler)))
    (p : String × List (SubId × Handler)) (hp : p ∈ l) (htag : tag ∈ deepTagsSubs p.2) :
    tag ∈ deepTagsEv l := by
  induction l with
  | nil => simp at hp
  | cons q rest ih =>
    simp only [deepTagsEv, List.mem_append]
    rcases List.mem_cons.mp hp with hh | hh
    · exact Or.inl (hh ▸ htag)
    · exact Or.inr (ih hh)

theorem mem_deepTagsSubs (tag : Nat) (m : List (SubId × Handler))
    (hmem : tag ∈ deepTagsSubs m) : ∃ q ∈ m, tag ∈ deepTagsActs q.2 := by
  induction m with
  | nil => simp [deepTagsSubs] at hmem
  | cons q rest ih =>
    simp only [deepTagsSubs, List.mem_append] at hmem
    rcases hmem with hh | hh
    · exact ⟨q, List.mem_cons_self _ _, hh⟩
    · obtain ⟨r, hr, hr2⟩ := ih hh
      exact ⟨r, List.mem_cons_of_mem _ hr, hr2⟩

theorem deepTagsSubs_of_mem (tag : Nat) (m : List (SubId × Handler)) (q : SubId × Handler)
    (hq : q ∈ m) (htag : tag ∈ deepTagsActs q.2) : tag ∈ deepTagsSubs m := by
  induction m with
  | nil => simp at hq
  | cons r rest ih =>
    simp only [deepTagsSubs, List.mem_append]
    rcases List.mem_cons.mp hq with hh | hh
    · exact Or.inl (hh ▸ htag)
    · exact Or.inr (ih hh)

theorem deepTags_of_lookup (tag : Nat) (e : String) (k : SubId) (h : Handler)
    (t : EmitterState) (hl : lookupId k (subsOf e t) = some h)
    (htag : tag ∈ deepTagsActs h) : tag ∈ deepTagsState t := by
  rw [subsOf] at hl
  cases hev : lookupEv e t.handlers with
  | none => rw [hev] at hl; exact Option.noConfusion hl
  | some m =>
    rw [hev] at hl
    exact deepTagsEv_of_mem tag _ (e, m) (lookupEv_some_mem _ _ _ hev)
      (deepTagsSubs_of_mem tag _ (k, h) (lookupId_some_mem_pair _ _ _ hl) htag)

theorem recTags_subset_deepTags (h : Handler) (t : Nat) (ht : t ∈ recTags h) :
    t ∈ deepTagsActs h := by
  induction h with
  | nil => simp [recTags] at ht
  | cons a rest ih =>
    cases a with
    | record t' =>
      simp only [recTags, List.mem_cons] at ht
      simp only [deepTagsActs, deepTagsAct, List.mem_append, List.mem_singleton]
      rcases ht with hh | hh
      · exact Or.inl hh
      · exact Or.inr (ih hh)
    | cancelHandle k =>
      simp only [recTags] at ht
      simp only [deepTagsActs, deepTagsAct, List.mem_append]
      exact Or.inr (ih ht)
    | onNew e b =>
      simp only [recTags] at ht
      simp only [deepTagsActs, deepTagsAct, List.mem_append]
      exact Or.inr (ih ht)
    | onceNew e b =>
      simp only [recTags] at ht
      simp only [deepTagsActs, deepTagsAct, List.mem_append]
      exact Or.inr (ih ht)
    | throwErr =>
      simp only [recTags] at ht
      simp only [deepTagsActs, deepTagsAct, List.mem_append]
      exact Or.inr (ih ht)

theorem mem_concatMap (f : SubId → List (Nat × α)) (l : List SubId) (p : Nat × α)
    (hp : p ∈ concatMap f l) : ∃ i ∈ l, p ∈ f i := by
  induction l with
  | nil => simp [concatMap] at hp
  | cons i rest ih =>
    simp only [concatMap, List.mem_append] at hp
    rcases hp with hh | hh
    · exact ⟨i, List.mem_cons_self _ _, hh⟩
    · obtain ⟨k, hk, hk2⟩ := ih hh
      exact ⟨k, List.mem_cons_of_mem _ hk, hk2⟩

theorem mem_subsOf_cases (e : String) (t : EmitterState) (q : SubId × Handler)
    (hq : q ∈ subsOf e t) : ∃ m, lookupEv e t.handlers = some m ∧ (e, m) ∈ t.handlers ∧ q ∈ m := by
  rw [subsOf] at hq
  cases hev : lookupEv e t.handlers with
  | none => rw [hev] at hq; simp at hq
  | some m =>
    rw [hev] at hq
    exact ⟨m, rfl, lookupEv_some_mem _ _ _ hev, hq⟩

theorem tagConfined_cancel (tag : Nat) (j j' : SubId) (t : EmitterState)
    (hc : TagConfined tag j t) : TagConfined tag j (cancel j' t) := by
  intro p hp q hq hne
  simp only [cancel, List.mem_map] at hp
  obtain ⟨r, hr, rfl⟩ := hp
  exact hc r hr q (delId_mem_subset j' r.2 q hq).1 hne

theorem tagConfined_onEvent (tag : Nat) (j : SubId) (e : String) (b : Handler)
    (t : EmitterState) (hc : TagConfined tag j t) (hb : tag ∉ deepTagsActs b) :
    TagConfined tag j (onEvent e b t).2 := by
  intro p hp q hq hne
  simp only [onEvent] at hp
  rcases setEv_mem _ _ _ _ hp with hold | hnew
  · exact hc p hold q hq hne
  · subst hnew
    rcases setId_mem_pair _ _ _ q hq with hh | hh
    · obtain ⟨m, _, hm2, hm3⟩ := mem_subsOf_cases e t q hh
      exact hc (e, m) hm2 q hm3 hne
    · rw [hh]
      exact hb

theorem tagConfined_runAct (tag : Nat) (j : SubId) (args : α) (t : EmitterState) (a : HAct)
    (hc : TagConfined tag j t) (ha : tag ∉ deepTagsAct a) :
    TagConfined tag j (runAct args t a).1 := by
  cases a with
  | record t' => exact hc
  | cancelHandle k => exact tagConfined_cancel tag j k t hc
  | onNew e b => exact tagConfined_onEvent tag j e b t hc (by simpa [deepTagsAct] using ha)
  | onceNew e b =>
    exact tagConfined_onEvent tag j e _ t hc
      (by simpa [deepTagsActs, deepTagsAct] using ha)
  | throwErr => exact hc

theorem tagConfined_runActs (tag : Nat) (j : SubId) (args : α) (h : Handler)
    (t : EmitterState) (hc : TagConfined tag j t) (hh : tag ∉ deepTagsActs h) :
    TagConfined tag j (runActs args h t).1 := by
  induction h generalizing t with
  | nil => exact hc
  | cons a rest ih =>
    simp only [deepTagsActs, List.mem_append] at hh
    push_neg at hh
    simp only [runActs]
    by_cases ht : (runAct args t a).2.2 = true
    · simpa [ht] using tagConfined_runAct tag j args t a hc hh.1
    · simpa [ht] using ih _ (tagConfined_runAct tag j args t a hc hh.1) hh.2

theorem tagConfined_emitLoop (tag : Nat) (j : SubId) (e : String) (args : α)
    (snap : List SubId) (t : EmitterState) (hc : TagConfined tag j t)
    (hsnap : ∀ k ∈ snap, k ≠ j) : TagConfined tag j (emitLoop e args snap t).state := by
  induction snap generalizing t with
  | nil => exact hc
  | cons i rest ih =>
    cases hl : lookupId i (subsOf e t) with
    | none =>
      simp only [emitLoop, hl]
      exact ih t hc (fun k hk => hsnap k (List.mem_cons_of_mem _ hk))
    | some h =>
      have hfree : tag ∉ deepTagsActs h := by
        intro htag
        obtain ⟨m, _, hm2, hm3⟩ := mem_subsOf_cases e t (i, h)
          (lookupId_some_mem_pair _ _ _ hl)
        exact hc (e, m) hm2 (i, h) hm3 (hsnap i (List.mem_cons_self _ _)) htag
      simp only [emitLoop, hl]
      by_cases ht : (runActs args h t).2.2 = true
      · simpa [ht] using tagConfined_runActs tag j args h t hc hfree
      · simpa [ht] using ih _ (tagConfined_runActs tag j args h t hc hfree)
          (fun k hk => hsnap k (List.mem_cons_of_mem _ hk))

theorem tagConfined_cancel_free (tag : Nat) (j : SubId) (t : EmitterState)
    (hc : TagConfined tag j t) : tag ∉ deepTagsState (cancel j t) := by
  intro htag
  obtain ⟨p, hp, hp2⟩ := mem_deepTagsEv tag _ htag
  simp only [cancel, List.mem_map] at hp
  obtain ⟨r, hr, rfl⟩ := hp
  obtain ⟨q, hq, hq2⟩ := mem_deepTagsSubs tag _ hp2
  obtain ⟨hq3, hq4⟩ := delId_mem_subset j r.2 q hq
  exact hc r hr q hq3 hq4 hq2

theorem deepTags_cancel_sub (tag : Nat) (j' : SubId) (t : EmitterState)
    (htag : tag ∈ deepTagsState (cancel j' t)) : tag ∈ deepTagsState t := by
  obtain ⟨p, hp, hp2⟩ := mem_deepTagsEv tag _ htag
  simp only [cancel, List.mem_map] at hp
  obtain ⟨r, hr, rfl⟩ := hp
  obtain ⟨q, hq, hq2⟩ := mem_deepTagsSubs tag _ hp2
  exact deepTagsEv_of_mem tag _ r hr
    (deepTagsSubs_of_mem tag _ q (delId_mem_subset j' r.2 q hq).1 hq2)

theorem deepTags_onEvent_sub (tag : Nat) (e : String) (b : Handler) (t : EmitterState)
    (htag : tag ∈ deepTagsState (onEvent e b t).2) :
    tag ∈ deepTagsState t ∨ tag ∈ deepTagsActs b := by
  obtain ⟨p, hp, hp2⟩ := mem_deepTagsEv tag _ htag
  simp only [onEvent] at hp
  rcases setEv_mem _ _ _ _ hp with hold | hnew
  · exact Or.inl (deepTagsEv_of_mem tag _ p hold hp2)
  · subst hnew
    obtain ⟨q, hq, hq2⟩ := mem_deepTagsSubs tag _ hp2
    rcases setId_mem_pair _ _ _ q hq with hh | hh
    · obtain ⟨m, _, hm2, hm3⟩ := mem_subsOf_cases e t q hh
      exact Or.inl (deepTagsEv_of_mem tag _ (e, m) hm2 (deepTagsSubs_of_mem tag _ q hm3 hq2))
    · rw [hh] at hq2
      exact Or.inr hq2

theorem deepTags_runAct_sub (tag : Nat) (args : α) (t : EmitterState) (a : HAct)
    (htag : tag ∈ deepTagsState (runAct args t a).1) :
    tag ∈ deepTagsState t ∨ tag ∈ deepTagsAct a := by
  cases a with
  | record t' => exact Or.inl htag
  | cancelHandle k => exact Or.inl (deepTags_cancel_sub tag k t htag)
  | onNew e b =>
    rcases deepTags_onEvent_sub tag e b t htag with hh | hh
    · exact Or.inl hh
    · exact Or.inr (by simpa [deepTagsAct] using hh)
  | onceNew e b =>
    rcases deepTags_onEvent_sub tag e _ t htag with hh | hh
    · exact Or.inl hh
    · exact Or.inr (by simpa [deepTagsAct, deepTagsActs] using hh)
  | throwErr => exact Or.inl htag

theorem deepTags_runActs_sub (tag : Nat) (args : α) (h : Handler) (t : EmitterState)
    (htag : tag ∈ deepTagsState (runActs args h t).1) :
    tag ∈ deepTagsState t ∨ tag ∈ deepTagsActs h := by
  induction h generalizing t with
  | nil => exact Or.inl htag
  | cons a rest ih =>
    have hsplit : tag ∈ deepTagsState t ∨ tag ∈ deepTagsAct a ∨ tag ∈ deepTagsActs rest := by
      by_cases ht : (runAct args t a).2.2 = true
      · simp only [runActs, ht, if_true] at htag
        rcases deepTags_runAct_sub tag args t a htag with hh | hh
        · exact Or.inl hh
        · exact Or.inr (Or.inl hh)
      · simp only [runActs, ht, Bool.false_eq_true, if_false] at htag
        rcases ih (runAct args t a).1 htag with hh | hh
        · rcases deepTags_runAct_sub tag args t a hh with h2 | h2
          · exact Or.inl h2
          · exact Or.inr (Or.inl h2)
        · exact Or.inr (Or.inr hh)
    rcases hsplit with hh | hh | hh
    · exact Or.inl hh
    · exact Or.inr (by simp only [deepTagsActs, List.mem_append]; exact Or.inl hh)
    · exact Or.inr (by simp only [deepTagsActs, List.mem_append]; exact Or.inr hh)

theorem runActs_log_tags (args : α) (h : Handler) (t : EmitterState) :
    ∀ p ∈ (runActs args h t).2.1, p.1 ∈ deepTagsActs h := by
  induction h generalizing t with
  | nil => simp [runActs]
  | cons a rest ih =>
    intro p hp
    have hact : ∀ q ∈ (runAct args t a).2.1, q.1 ∈ deepTagsAct a := by
      intro q hq
      cases a <;> simp_all [runAct, deepTagsAct]
    simp only [runActs] at hp
    by_cases ht : (runAct args t a).2.2 = true
    · simp only [ht, if_true] at hp
      simp only [deepTagsActs, List.mem_append]
      exact Or.inl (hact p hp)
    · simp only [ht, Bool.false_eq_true, if_false, List.mem_append] at hp
      simp only [deepTagsActs, List.mem_append]
      rcases hp with hh | hh
      · exact Or.inl (hact p hh)
      · exact Or.inr (ih _ p hh)

theorem emitLoop_tagfree (tag : Nat) (e : String) (args : α) (snap : List SubId)
    (t : EmitterState) (hfree : tag ∉ deepTagsState t) :
    (∀ p ∈ (emitLoop e args snap t).log, p.1 ≠ tag) ∧
    tag ∉ deepTagsState (emitLoop e args snap t).state := by
  induction snap generalizing t with
  | nil => exact ⟨by simp [emitLoop], hfree⟩
  | cons i rest ih =>
    cases hl : lookupId i (subsOf e t) with
    | none =>
      simp only [emitLoop, hl]
      exact ih t hfree
    | some h =>
      have hfh : tag ∉ deepTagsActs h := fun ht => hfree (deepTags_of_lookup tag e i h t hl ht)
      have hstate1 : tag ∉ deepTagsState (runActs args h t).1 := by
        intro ht
        rcases deepTags_runActs_sub tag args h t ht with hh | hh
        · exact hfree hh
        · exact hfh hh
      have hlog1 : ∀ p ∈ (runActs args h t).2.1, p.1 ≠ tag :=
        fun p hp hpt => hfh (hpt ▸ runActs_log_tags args h t p hp)
      simp only [emitLoop, hl]
      by_cases ht : (runActs args h t).2.2 = true
      · simp only [ht, if_true]
        exact ⟨hlog1, hstate1⟩
      · simp only [ht, Bool.false_eq_true, if_false]
        obtain ⟨ihl, ihs⟩ := ih (runActs args h t).1 hstate1
        refine ⟨?_, ihs⟩
        intro p hp
        rcases List.mem_append.mp hp with hh | hh
        · exact hlog1 p hh
        · exact ihl p hh

theorem emit_tagfree (tag : Nat) (e : String) (args : α) (t : EmitterState)
    (hfree : tag ∉ deepTagsState t) :
    (∀ p ∈ (emit e args t).log, p.1 ≠ tag) ∧ tag ∉ deepTagsState (emit e args t).state := by
  cases hev : lookupEv e t.handlers with
  | none =>
    simp only [emit, hev]
    exact ⟨by simp, hfree⟩
  | some m =>
    simp only [emit, hev]
    exact emitLoop_tagfree tag e args _ t hfree

theorem deepTags_subscribe_sub (tag : Nat) (entries : List (String × Option HandlerMapEntry))
    (t : EmitterState) (htag : tag ∈ deepTagsState (subscribe entries t).2) :
    tag ∈ deepTagsState t ∨ tag ∈ entriesTags entries := by
  induction entries generalizing t with
  | nil => exact Or.inl htag
  | cons p rest ih =>
    obtain ⟨e, entry⟩ := p
    cases entry with
    | none => simpa [entriesTags] using ih t htag
    | some en =>
      cases en with
      | plainFn b =>
        simp only [subscribe, HandlerMapEntry.isOnce, HandlerMapEntry.body,
          Bool.false_eq_true, if_false] at htag
        rcases ih _ htag with hh | hh
        · rcases deepTags_onEvent_sub tag e b t hh with h2 | h2
          · exact Or.inl h2
          · exact Or.inr (by
              simp only [entriesTags, HandlerMapEntry.body, List.mem_append]
              exact Or.inl h2)
        · exact Or.inr (by
            simp only [entriesTags, HandlerMapEntry.body, List.mem_append]
            exact Or.inr hh)
      | marked b =>
        simp only [subscribe, HandlerMapEntry.isOnce, HandlerMapEntry.body, if_true] at htag
        rcases ih _ htag with hh | hh
        · rcases deepTags_onEvent_sub tag e _ t hh with h2 | h2
          · exact Or.inl h2
          · exact Or.inr (by
              simp only [entriesTags, HandlerMapEntry.body, List.mem_append]
              exact Or.inl (by simpa [deepTagsActs, deepTagsAct] using h2))
        · exact Or.inr (by
            simp only [entriesTags, HandlerMapEntry.body, List.mem_append]
            exact Or.inr hh)

theorem applyOp_tagfree (tag : Nat) (op : Op α) (t : EmitterState)
    (hfree : tag ∉ deepTagsState t) (hop : tag ∉ opTags op) :
    (∀ p ∈ (applyOp op t).2.2, p.1 ≠ tag) ∧ tag ∉ deepTagsState (applyOp op t).1 := by
  cases op with
  | opOn e h =>
    refine ⟨by simp [applyOp], ?_⟩
    intro ht
    rcases deepTags_onEvent_sub tag e h t ht with hh | hh
    · exact hfree hh
    · exact hop (by simpa [opTags] using hh)
  | opOnce e h =>
    refine ⟨by simp [applyOp], ?_⟩
    intro ht
    rcases deepTags_onEvent_sub tag e _ t ht with hh | hh
    · exact hfree hh
    · exact hop (by simpa [opTags, deepTagsActs, deepTagsAct] using hh)
  | opSubscribe entries =>
    refine ⟨by simp [applyOp], ?_⟩
    intro ht
    rcases deepTags_subscribe_sub tag entries t ht with hh | hh
    · exact hfree hh
    · exact hop (by simpa [opTags] using hh)
  | opCancel i =>
    exact ⟨by simp [applyOp], fun ht => hfree (deepTags_cancel_sub tag i t ht)⟩
  | opEmit e args =>
    exact emit_tagfree tag e args t hfree

theorem applyOps_tagfree (tag : Nat) (ops : List (Op α)) (t : EmitterState)
    (hfree : tag ∉ deepTagsState t) (hops : ∀ op ∈ ops, tag ∉ opTags op) :
    (∀ p ∈ (applyOps ops t).2.2, p.1 ≠ tag) ∧ tag ∉ deepTagsState (applyOps ops t).1 := by
  induction ops generalizing t with
  | nil => exact ⟨by simp [applyOps], hfree⟩
  | cons op rest ih =>
    obtain ⟨h1, h2⟩ := applyOp_tagfree tag op t hfree (hops op (List.mem_cons_self _ _))
    obtain ⟨h3, h4⟩ := ih (applyOp op t).1 h2 (fun o ho => hops o (List.mem_cons_of_mem _ ho))
    refine ⟨?_, h4⟩
    intro p hp
    simp only [applyOps, List.mem_append] at hp
    rcases hp with hh | hh
    · exact h1 p hh
    · exact h3 p hh

theorem pool_sub_state (tag : Nat) (e' : String) (t : EmitterState)
    (htag : tag ∈ deepTagsSubs (subsOf e' t)) : tag ∈ deepTagsState t := by
  obtain ⟨q, hq, hq2⟩ := mem_deepTagsSubs tag _ htag
  obtain ⟨m, _, hm2, hm3⟩ := mem_subsOf_cases e' t q hq
  exact deepTagsEv_of_mem tag _ (e', m) hm2 (deepTagsSubs_of_mem tag _ q hm3 hq2)

theorem pool_cancel_sub (tag : Nat) (e' : String) (j' : SubId) (t : EmitterState)
    (htag : tag ∈ deepTagsSubs (subsOf e' (cancel j' t))) :
    tag ∈ deepTagsSubs (subsOf e' t) := by
  rw [subsOf_cancel] at htag
  obtain ⟨q, hq, hq2⟩ := mem_deepTagsSubs tag _ htag
  exact deepTagsSubs_of_mem tag _ q (delId_mem_subset j' _ q hq).1 hq2

theorem pool_onEvent_sub (tag : Nat) (e' e : String) (b : Handler) (t : EmitterState)
    (htag : tag ∈ deepTagsSubs (subsOf e' (onEvent e b t).2)) :
    tag ∈ deepTagsSubs (subsOf e' t) ∨ tag ∈ deepTagsActs b := by
  by_cases he : e' = e
  · subst he
    rw [subsOf_onEvent_self] at htag
    obtain ⟨q, hq, hq2⟩ := mem_deepTagsSubs tag _ htag
    rcases setId_mem_pair _ _ _ q hq with hh | hh
    · exact Or.inl (deepTagsSubs_of_mem tag _ q hh hq2)
    · rw [hh] at hq2
      exact Or.inr hq2
  · rw [subsOf_onEvent_ne _ _ _ _ he] at htag
    exact Or.inl htag

theorem pool_runAct_sub (tag : Nat) (e' : String) (args : α) (t : EmitterState) (a : HAct)
    (htag : tag ∈ deepTagsSubs (subsOf e' (runAct args t a).1)) :
    tag ∈ deepTagsSubs (subsOf e' t) ∨ tag ∈ deepTagsAct a := by
  cases a with
  | record t' => exact Or.inl htag
  | cancelHandle k => exact Or.inl (pool_cancel_sub tag e' k t htag)
  | onNew e b =>
    rcases pool_onEvent_sub tag e' e b t htag with hh | hh
    · exact Or.inl hh
    · exact Or.inr (by simpa [deepTagsAct] using hh)
  | onceNew e b =>
    rcases pool_onEvent_sub tag e' e _ t htag with hh | hh
    · exact Or.inl hh
    · exact Or.inr (by simpa [deepTagsAct, deepTagsActs] using hh)
  | throwErr => exact Or.inl htag

theorem pool_runActs_sub (tag : Nat) (e' : String) (args : α) (h : Handler) (t : EmitterState)
    (htag : tag ∈ deepTagsSubs (subsOf e' (runActs args h t).1)) :
    tag ∈ deepTagsSubs (subsOf e' t) ∨ tag ∈ deepTagsActs h := by
  induction h generalizing t with
  | nil => exact Or.inl htag
  | cons a rest ih =>
    have hsplit : tag ∈ deepTagsSubs (subsOf e' t) ∨ tag ∈ deepTagsAct a ∨
        tag ∈ deepTagsActs rest := by
      by_cases ht : (runAct args t a).2.2 = true
      · simp only [runActs, ht, if_true] at htag
        rcases pool_runAct_sub tag e' args t a htag with hh | hh
        · exact Or.inl hh
        · exact Or.inr (Or.inl hh)
      · simp only [runActs, ht, Bool.false_eq_true, if_false] at htag
        rcases ih (runAct args t a).1 htag with hh | hh
        · rcases pool_runAct_sub tag e' args t a hh with h2 | h2
          · exact Or.inl h2
          · exact Or.inr (Or.inl h2)
        · exact Or.inr (Or.inr hh)
    rcases hsplit with hh | hh | hh
    · exact Or.inl hh
    · exact Or.inr (by simp only [deepTagsActs, List.mem_append]; exact Or.inl hh)
    · exact Or.inr (by simp only [deepTagsActs, List.mem_append]; exact Or.inr hh)

theorem emitLoop_log_pool (e' : String) (args : α) (snap : List SubId) (t : EmitterState) :
    ∀ p ∈ (emitLoop e' args snap t).log, p.1 ∈ deepTagsSubs (subsOf e' t) := by
  induction snap generalizing t with
  | nil => simp [emitLoop]
  | cons i rest ih =>
    intro p hp
    cases hl : lookupId i (subsOf e' t) with
    | none =>
      simp only [emitLoop, hl] at hp
      exact ih t p hp
    | some h =>
      have hpoolh : ∀ x ∈ deepTagsActs h, x ∈ deepTagsSubs (subsOf e' t) :=
        fun x hx => deepTagsSubs_of_mem x _ (i, h) (lookupId_some_mem_pair _ _ _ hl) hx
      simp only [emitLoop, hl] at hp
      by_cases ht : (runActs args h t).2.2 = true
      · simp only [ht, if_true] at hp
        exact hpoolh p.1 (runActs_log_tags args h t p hp)
      · simp only [ht, Bool.false_eq_true, if_false, List.mem_append] at hp
        rcases hp with hh | hh
        · exact hpoolh p.1 (runActs_log_tags args h t p hh)
        · rcases pool_runActs_sub p.1 e' args h t (ih _ p hh) with h2 | h2
          · exact h2
          · exact hpoolh p.1 h2

/-- C6: the promise created by `onceAsPromise(e)` (modelled by the fresh
resolution tag `tag`) resolves with exactly the ordered argument tuple of
the next dispatch of `e` and resolves exactly once: the first dispatch of
`e` after subscribing produces exactly one resolution log entry, carrying
exactly that dispatch's argument tuple; dispatching any other event never
resolves it (it stays pending until `e` fires); and after that first
dispatch no sequence of future operations (none of which forges the
private resolution tag) ever produces a resolution entry again.  The model
has no rejection action, so the promise never rejects. -/
theorem C6_onceAsPromise_resolves_once {α : Type} (e : String) (args : α) (s : EmitterState)
    (tag : Nat) (hwf : WF s) (hb : benignE e s = true) (hfresh : tag ∉ deepTagsState s) :
    (emit e args (onceAsPromise tag e s).2).log.filter (fun p => decide (p.1 = tag)) =
      [(tag, args)] ∧
    (∀ e' : String, ∀ args' : α, e' ≠ e →
      ∀ p ∈ (emit e' args' (onceAsPromise tag e s).2).log, p.1 ≠ tag) ∧
    (∀ ops : List (Op α), (∀ op ∈ ops, tag ∉ opTags op) →
      ∀ p ∈ (applyOps ops (emit e args (onceAsPromise tag e s).2).state).2.2, p.1 ≠ tag) := by
  simp only [onceAsPromise]
  have hnomem : s.nextSubscriptionIdNumber ∉ (subsOf e s).map (·.1) :=
    (lookupId_eq_none_iff _ _).mp (lookupId_next_subsOf e s hwf)
  have hsub1 : subsOf e (once e [HAct.record tag] s).2 =
      subsOf e s ++
        [(s.nextSubscriptionIdNumber, HAct.cancelHandle s.nextSubscriptionIdNumber ::
          [HAct.record tag])] :=
    subsOf_onEvent_self_append e _ s hwf
  have hev1 : lookupEv e (once e [HAct.record tag] s).2.handlers =
      some (setId s.nextSubscriptionIdNumber
        (HAct.cancelHandle s.nextSubscriptionIdNumber :: [HAct.record tag]) (subsOf e s)) :=
    lookupEv_setEv_self e _ s.handlers
  have hset : setId s.nextSubscriptionIdNumber
      (HAct.cancelHandle s.nextSubscriptionIdNumber :: [HAct.record tag]) (subsOf e s) =
      subsOf e s ++
        [(s.nextSubscriptionIdNumber, HAct.cancelHandle s.nextSubscriptionIdNumber ::
          [HAct.record tag])] :=
    setId_absent _ _ _ (lookupId_next_subsOf e s hwf)
  have hwf1 : WF (once e [HAct.record tag] s).2 := WF_once e _ s hwf
  have hemit : emit e args (once e [HAct.record tag] s).2 =
      emitLoop e args ((subsOf e s).map (·.1) ++ [s.nextSubscriptionIdNumber])
        (once e [HAct.record tag] s).2 := by
    simp only [emit, hev1, hset]
    rw [List.map_append]
    rfl
  have hpA : ∀ k ∈ (subsOf e s).map (·.1),
      ∃ h', lookupId k (subsOf e (once e [HAct.record tag] s).2) = some h' ∧
        benignH h' = true := by
    intro k hk
    obtain ⟨h', hl'⟩ := lookupId_isSome_of_mem_keys k _ hk
    have hkn : k ≠ s.nextSubscriptionIdNumber := fun hh => hnomem (hh ▸ hk)
    refine ⟨h', ?_, benignE_lookup e s k h' hb hl'⟩
    have hx := lookupSub_onEvent e e k
      (HAct.cancelHandle s.nextSubscriptionIdNumber :: [HAct.record tag]) s hkn
    rw [lookupSub, lookupSub] at hx
    show lookupId k
      (subsOf e (onEvent e
        (HAct.cancelHandle s.nextSubscriptionIdNumber :: [HAct.record tag]) s).2) = some h'
    rw [hx]
    exact hl'
  obtain ⟨hA1, hA2, hA3, hA4⟩ :=
    emitLoop_benign e args ((subsOf e s).map (·.1)) (once e [HAct.record tag] s).2 hwf1 hpA
  have hmonoA := emitLoop_next_mono e args ((subsOf e s).map (·.1))
    (once e [HAct.record tag] s).2
  have hlt1 : s.nextSubscriptionIdNumber <
      (once e [HAct.record tag] s).2.nextSubscriptionIdNumber := by
    rw [once_next]
    exact Nat.lt_succ_self _
  have hlookupN : lookupId s.nextSubscriptionIdNumber
      (subsOf e (emitLoop e args ((subsOf e s).map (·.1))
        (once e [HAct.record tag] s).2).state) =
      some (HAct.cancelHandle s.nextSubscriptionIdNumber :: [HAct.record tag]) := by
    have hx := hA4 e s.nextSubscriptionIdNumber hlt1
    rw [lookupSub, lookupSub] at hx
    rw [hx, hsub1, lookupId_append_right _ _ _ hnomem]
    simp [lookupId]
  have hrw : runActs args
      (HAct.cancelHandle s.nextSubscriptionIdNumber :: [HAct.record tag])
      (emitLoop e args ((subsOf e s).map (·.1)) (once e [HAct.record tag] s).2).state =
      (cancel s.nextSubscriptionIdNumber
        (emitLoop e args ((subsOf e s).map (·.1)) (once e [HAct.record tag] s).2).state,
       [(tag, args)], false) := rfl
  have hstep : emitLoop e args [s.nextSubscriptionIdNumber]
        (emitLoop e args ((subsOf e s).map (·.1)) (once e [HAct.record tag] s).2).state =
      ⟨cancel s.nextSubscriptionIdNumber
          (emitLoop e args ((subsOf e s).map (·.1)) (once e [HAct.record tag] s).2).state,
        [(tag, args)], [s.nextSubscriptionIdNumber], false⟩ := by
    simp only [emitLoop, hlookupN, hrw, Bool.false_eq_true, if_false]
    simp [emitLoop]
  have hwhole : emit e args (once e [HAct.record tag] s).2 =
      ⟨cancel s.nextSubscriptionIdNumber
          (emitLoop e args ((subsOf e s).map (·.1)) (once e [HAct.record tag] s).2).state,
        (emitLoop e args ((subsOf e s).map (·.1)) (once e [HAct.record tag] s).2).log ++
          [(tag, args)],
        (emitLoop e args ((subsOf e s).map (·.1)) (once e [HAct.record tag] s).2).invoked ++
          [s.nextSubscriptionIdNumber],
        false⟩ := by
    rw [hemit, emitLoop_append, if_neg (by rw [hA2]; exact Bool.false_ne_true), hstep]
  have hAfree : ∀ p ∈ (emitLoop e args ((subsOf e s).map (·.1))
      (once e [HAct.record tag] s).2).log, p.1 ≠ tag := by
    intro p hp hpt
    rw [hA3] at hp
    obtain ⟨i, hi, hp2⟩ := mem_concatMap _ _ p hp
    obtain ⟨h', hl', _⟩ := hpA i hi
    rw [hl'] at hp2
    simp only [Option.getD_some, recordsOf, List.mem_map] at hp2
    obtain ⟨t', ht', heq⟩ := hp2
    have hpt' : t' = tag := by rw [← heq] at hpt; exact hpt
    have ht2 : tag ∈ recTags h' := by rw [← hpt']; exact ht'
    have hkn : i ≠ s.nextSubscriptionIdNumber := fun hh => hnomem (hh ▸ hi)
    have hx := lookupSub_onEvent e e i
      (HAct.cancelHandle s.nextSubscriptionIdNumber :: [HAct.record tag]) s hkn
    rw [lookupSub, lookupSub] at hx
    have hl'2 : lookupId i (subsOf e s) = some h' := by
      rw [← hx]
      exact hl'
    exact hfresh (deepTags_of_lookup tag e i h' s hl'2 (recTags_subset_deepTags h' tag ht2))
  refine ⟨?_, ?_, ?_⟩
  · rw [hwhole]
    show ((emitLoop e args ((subsOf e s).map (·.1))
        (once e [HAct.record tag] s).2).log ++ [(tag, args)]).filter
        (fun p => decide (p.1 = tag)) = [(tag, args)]
    rw [List.filter_append]
    have hnil : (emitLoop e args ((subsOf e s).map (·.1))
        (once e [HAct.record tag] s).2).log.filter (fun p => decide (p.1 = tag)) = [] := by
      rw [List.filter_eq_nil_iff]
      intro p hp
      simpa using hAfree p hp
    rw [hnil]
    simp
  · intro e' args' hne p hp hpt
    cases hev' : lookupEv e' (once e [HAct.record tag] s).2.handlers with
    | none =>
      simp only [emit, hev'] at hp
      simp at hp
    | some m =>
      simp only [emit, hev'] at hp
      have hpool := emitLoop_log_pool e' args' (m.map (·.1))
        (once e [HAct.record tag] s).2 p hp
      have hsubeq : subsOf e' (once e [HAct.record tag] s).2 = subsOf e' s :=
        subsOf_onEvent_ne e e' _ s hne
      rw [hsubeq] at hpool
      exact hfresh (hpt ▸ pool_sub_state p.1 e' s hpool)
  · have hconf : TagConfined tag s.nextSubscriptionIdNumber
        (once e [HAct.record tag] s).2 := by
      intro p hp q hq hne2 htq
      have hp2 : p ∈ setEv e (setId s.nextSubscriptionIdNumber
          (HAct.cancelHandle s.nextSubscriptionIdNumber :: [HAct.record tag])
          (subsOf e s)) s.handlers := hp
      rcases setEv_mem _ _ _ _ hp2 with hold | hnew
      · exact hfresh (deepTagsEv_of_mem tag _ p hold (deepTagsSubs_of_mem tag _ q hq htq))
      · subst hnew
        rcases setId_mem_pair _ _ _ q hq with hh | hh
        · obtain ⟨m, _, hm2, hm3⟩ := mem_subsOf_cases e s q hh
          exact hfresh (deepTagsEv_of_mem tag _ (e, m) hm2
            (deepTagsSubs_of_mem tag _ q hm3 htq))
        · exact hne2 (by rw [hh])
    have hconfA : TagConfined tag s.nextSubscriptionIdNumber
        (emitLoop e args ((subsOf e s).map (·.1)) (once e [HAct.record tag] s).2).state :=
      tagConfined_emitLoop tag s.nextSubscriptionIdNumber e args _ _ hconf
        (fun k hk hkeq => hnomem (hkeq ▸ hk))
    have hfreeState : tag ∉ deepTagsState
        (emit e args (once e [HAct.record tag] s).2).state := by
      rw [hwhole]
      exact tagConfined_cancel_free tag s.nextSubscriptionIdNumber _ hconfA
    intro ops hops p hp hpt
    exact (applyOps_tagfree tag ops _ hfreeState hops).1 p hp hpt

theorem C6_witness :
    WF wOne ∧ benignE "e" wOne = true ∧ ((99 : Nat) ∉ deepTagsState wOne) ∧
    ("x" ≠ "e") ∧
    (∀ op ∈ [Op.opEmit "e" (5 : Nat)], (99 : Nat) ∉ opTags op) ∧
    ((emit "e" (1 : Nat) (onceAsPromise 99 "e" wOne).2).log.filter
        (fun p => decide (p.1 = 99)) = [(99, 1)] ∧
      (∀ p ∈ (emit "x" (2 : Nat) (onceAsPromise 99 "e" wOne).2).log, p.1 ≠ 99) ∧
      (∀ p ∈ (applyOps [Op.opEmit "e" (5 : Nat)]
          (emit "e" (1 : Nat) (onceAsPromise 99 "e" wOne).2).state).2.2, p.1 ≠ 99)) :=
  ⟨by decide, by decide, by decide, by decide, by decide,
   (C6_onceAsPromise_resolves_once "e" 1 wOne 99 (by decide) (by decide) (by decide)).1,
   (C6_onceAsPromise_resolves_once "e" 1 wOne 99 (by decide) (by decide)
     (by decide)).2.1 "x" 2 (by decide),
   (C6_onceAsPromise_resolves_once "e" 1 wOne 99 (by decide) (by decide)
     (by decide)).2.2 [Op.opEmit "e" 5] (by decide)⟩

end StrictlyTypedEvents
